import Mathlib

/-!
Verification of the segmented sieve of Eratosthenes driver
(`SieveOfEratosthenes.cpp`).

The driver source is embedded faithfully below.  The collaborators that the
repository does not ship alongside the driver (PreSieve, the three Erat
tiers, `imath.h`, `config.h`) are modelled from the specification; each such
definition carries a doc comment starting with `Modelled from the spec:`.
-/

namespace Soe

/-- Constant NUMBERS_PER_BYTE = 30: each sieve byte covers 30 integers
(source: SieveOfEratosthenes.h via spec section 3). -/
def NUMBERS_PER_BYTE : Nat := 30

/-- Table `bitValues_[8] = { 7, 11, 13, 17, 19, 23, 29, 31 }`: bit j of a
sieve byte at byte offset i represents the integer
segmentLow + i*30 + bitValues j (source line 27). -/
def bitValues (j : Nat) : Nat := [7, 11, 13, 17, 19, 23, 29, 31].getD j 0

/-- Integer represented by bit j of byte i of a segment starting at
segmentLow. -/
def bitInteger (segmentLow i j : Nat) : Nat :=
  segmentLow + NUMBERS_PER_BYTE * i + bitValues j

/-- Source `getByteRemainder(n)`: `r = n % 30; if (r <= 1) r += 30;`
(source lines 131-137). -/
def getByteRemainder (n : Nat) : Nat :=
  let r := n % NUMBERS_PER_BYTE
  if r ≤ 1 then r + NUMBERS_PER_BYTE else r

/-- Modelled from the spec: `getInBetween(min, x, max)` value clamping from
`imath.h` (not under src), spec section 4.1. -/
def getInBetween (lo x hi : Nat) : Nat :=
  if x < lo then lo else if x > hi then hi else x

/-- Fuel-driven binary logarithm used by `floorPowerOf2`; the fuel bounds the
bit width (uint_t is 32 bits wide). -/
def log2Fuel : Nat → Nat → Nat
  | 0, _ => 0
  | fuel + 1, n => if n ≤ 1 then 0 else log2Fuel fuel (n / 2) + 1

/-- Modelled from the spec: `floorPowerOf2` from `imath.h` (not under src),
spec section 4.1: the largest power of two not exceeding a nonzero 32-bit
input, and 0 on input 0. -/
def floorPowerOf2 (n : Nat) : Nat :=
  if n = 0 then 0 else 2 ^ log2Fuel 32 n

/-- Newton iteration kernel for the integer square root.  Structural in the
fuel so that the kernel can evaluate it. -/
def isqrtAux : Nat → Nat → Nat → Nat
  | 0, _, g => g
  | fuel + 1, n, g =>
    if (g + n / g) / 2 < g then isqrtAux fuel n ((g + n / g) / 2) else g

/-- Modelled from the spec: `isqrt` from `imath.h` (not under src), spec
section 4.1: exact floor integer square root. -/
def isqrt (n : Nat) : Nat := if n ≤ 1 then n else isqrtAux n n n

/-! ### Byte-level machinery

A sieve byte is a natural number below 256; `bitsToNat` assembles a byte from
a bit predicate, mirroring how the sieve array stores one candidate flag per
wheel residue. -/

/-- Number with bits 0..k-1 given by the predicate f. -/
def bitsToNat (f : Nat → Bool) : Nat → Nat
  | 0 => 0
  | k + 1 => bitsToNat f k + cond (f k) (2 ^ k) 0

/-- Byte (8 bits) with bit j given by the predicate f. -/
def byteOfBits (f : Nat → Bool) : Nat := bitsToNat f 8

/-- Index computed by the loop `while (bitValues_[i] < remainder) i++;` in
`SieveOfEratosthenes::preSieve` (source line 166): the first bit index whose
wheel value is at least the remainder. -/
def startBitIndex (remainder : Nat) : Nat :=
  (List.range 8).findIdx fun j => decide (remainder ≤ bitValues j)

/-- Index computed by the loop
`for (i = 0; i < 8; i++) if (bitValues_[i] > remainder) break;` in
`SieveOfEratosthenes::finish` (source lines 189-191): the first bit index
whose wheel value exceeds the remainder, or 8 if none does. -/
def stopBitIndex (remainder : Nat) : Nat :=
  (List.range 8).findIdx fun j => decide (remainder < bitValues j)

/-- Bit pattern of the 32-bit int `~(0xff << i)` from
`sieve_[sieveSize_ - 1] &= ~(0xff << i)` (source line 192). -/
def notMask32 (i : Nat) : Nat := 0xffffffff - (0xff <<< i)

/-! ### Primality bookkeeping

Executable primality test used to express the guarantees that the spec gives
for PreSieve and for the three cross-off tiers. -/

/-- Boolean primality test by trial division. -/
def primeB (n : Nat) : Bool :=
  decide (2 ≤ n) && (List.range n).all fun d => decide (d < 2) || decide (n % d ≠ 0)

/-- Whether some prime at most `limit` divides n.  By the PreSieve guarantee
(spec section 4.2) these are exactly the bits that the pre-sieve mask
clears. -/
def smallDivB (limit n : Nat) : Bool :=
  (List.range (limit + 1)).any fun q => primeB q && decide (n % q = 0)

/-- Whether some sieving prime p with limit < p ≤ sqrtStop crosses off n,
i.e. p divides n and n ≥ p².  Modelled from the spec: this is the combined
contract of EratSmall, EratMedium and EratBig (spec sections 4.3-4.5) once
every sieving prime up to √stop has been added via addSievingPrime (spec
section 4.6); the tiers cross off exactly the multiples ≥ p² of each such
prime that fall inside the current segment (EratSmall.cpp, EratMedium.cpp
and EratBig.cpp are not under src). -/
def tierHitB (limit sqrtStop n : Nat) : Bool :=
  (List.range (sqrtStop + 1)).any fun p =>
    primeB p && decide (limit < p) && decide (n % p = 0) && decide (p * p ≤ n)

/-! ### The driver data model -/

/-- Scalar state of `SieveOfEratosthenes` (source lines 52-78).  The sieve
byte array itself is reconstructed functionally per segment, because the
driver fully overwrites it (preSieve then crossOff) before each delivery. -/
structure SieveOfEratosthenes where
  start_ : Nat
  stop_ : Nat
  sqrtStop_ : Nat
  limitPreSieve_ : Nat
  limitEratSmall_ : Nat
  limitEratMedium_ : Nat
  sieveSize_ : Nat
  segmentLow_ : Nat
  segmentHigh_ : Nat
deriving DecidableEq

/-- Modelled from the spec: `config::FACTOR_ERATSMALL` is about 0.75 (spec
sections 2 and 4.3; config.h is not under src).  `init()` computes
`limitEratSmall_ = sieveSize_ * FACTOR_ERATSMALL` (source line 96). -/
def limitEratSmallOf (sieveSize : Nat) : Nat := sieveSize * 3 / 4

/-- Modelled from the spec: `config::FACTOR_ERATMEDIUM` is about 9 (spec
sections 2 and 4.4; config.h is not under src).  `init()` computes
`limitEratMedium_ = sieveSize_ * FACTOR_ERATMEDIUM` (source line 97). -/
def limitEratMediumOf (sieveSize : Nat) : Nat := sieveSize * 9

/-- Modelled from the spec: `EratBig::getMaxStop()` (EratBig.cpp is not
under src) publishes the hard cap 2^64 - 2^32 * 10 on stop; the
documented construction precondition `stop <= 2^64 - 2^32 * 10` (source
lines 46-50 and spec section 4.5). -/
def getMaxStop : Nat := 2 ^ 64 - 2 ^ 32 * 10

/-- Modelled from the spec: the PreSieve constructor with its documented
precondition 13 ≤ limit ≤ 23 (spec sections 3, 4.2 and 7: a preSieve limit
out of range is a precondition error; PreSieve.cpp is not under src). -/
def preSieveCtor (limit : Nat) : Except String Unit :=
  if 13 ≤ limit ∧ limit ≤ 23 then .ok () else
    .error "PreSieve: limit must be >= 13 && <= 23"

/-- Modelled from the spec: the EratBig constructor enforces the published
hard cap on stop (spec section 4.5: the driver enforces getMaxStop via its
tiers; EratBig.cpp is not under src). -/
def eratBigCtor (stop : Nat) : Except String Unit :=
  if stop ≤ getMaxStop then .ok () else
    .error "EratBig: stop must be <= 2^64 - 2^32 * 10"

/-- Source `SieveOfEratosthenes::init()` (lines 94-109): computes the tier
limits and conditionally builds PreSieve, EratSmall, EratMedium and EratBig.
EratSmall and EratMedium have no further precondition of their own; the
limits were already stored by `construct`. -/
def init (s : SieveOfEratosthenes) : Except String SieveOfEratosthenes :=
  (preSieveCtor s.limitPreSieve_).bind fun _ =>
    if s.sqrtStop_ > s.limitEratMedium_ then
      (eratBigCtor s.stop_).bind fun _ => .ok s
    else .ok s

/-- Source constructor `SieveOfEratosthenes::SieveOfEratosthenes(start,
stop, sieveSize, preSieve)` (lines 52-78): precondition checks on start,
coercion of sieveSize to a power of two in [1, 4096] KiB, initial segment
window, then `init()`. -/
def construct (start stop sieveSize preSieve : Nat) :
    Except String SieveOfEratosthenes :=
  if start < 7 then .error "SieveOfEratosthenes: start must be >= 7"
  else if start > stop then .error "SieveOfEratosthenes: start must be <= stop"
  else
    -- sieveSize_ must be a power of 2
    let ss := getInBetween 1 (floorPowerOf2 sieveSize) 4096 * 1024
    let segmentLow := start - getByteRemainder start
    init
      { start_ := start
        stop_ := stop
        sqrtStop_ := isqrt stop
        limitPreSieve_ := preSieve
        limitEratSmall_ := limitEratSmallOf ss
        limitEratMedium_ := limitEratMediumOf ss
        sieveSize_ := ss
        segmentLow_ := segmentLow
        segmentHigh_ := segmentLow + ss * NUMBERS_PER_BYTE + 1 }

/-! ### Per-segment pipeline -/

/-- Modelled from the spec: byte i of the bitmap after
`preSieve_->doIt(sieve_, sieveSize_, segmentLow_)`: every bit whose integer
is a multiple of a prime ≤ limitPreSieve is clear, all other wheel bits are
set (spec section 4.2; PreSieve.cpp is not under src). -/
def doItByte (limit segmentLow i : Nat) : Nat :=
  byteOfBits fun j => ! smallDivB limit (bitInteger segmentLow i j)

/-- Source `SieveOfEratosthenes::preSieve()` (lines 156-169): fill the
bitmap from the PreSieve mask, then, when `segmentLow_ <= start_`, restore
the first byte to 0xff if `start_ <= limitPreSieve_` and unset the bits of
byte 0 whose numbers are below start. -/
def preSieveOut (s : SieveOfEratosthenes) (i : Nat) : Nat :=
  if s.segmentLow_ ≤ s.start_ ∧ i = 0 then
    (if s.start_ ≤ s.limitPreSieve_ then 255
     else doItByte s.limitPreSieve_ s.segmentLow_ 0) &&&
      (255 <<< startBitIndex (getByteRemainder s.start_))
  else doItByte s.limitPreSieve_ s.segmentLow_ i

/-- Source `SieveOfEratosthenes::crossOffMultiples()` (lines 146-151)
applied after `preSieve()`: clear, in every byte, the bits hit by a sieving
prime (the tier contracts are modelled by `tierHitB`). -/
def crossOffOut (s : SieveOfEratosthenes) (i : Nat) : Nat :=
  byteOfBits fun j =>
    (preSieveOut s i).testBit j &&
      ! tierHitB s.limitPreSieve_ s.sqrtStop_ (bitInteger s.segmentLow_ i j)

/-- One bitmap delivery `segmentProcessed(sieve_, sieveSize_)`:
the segment base, the delivered byte count, and the byte contents. -/
structure Delivery where
  segmentLow : Nat
  sieveSize : Nat
  sieve : Nat → Nat

/-- Source `sieveSegment()` (lines 139-144): preSieve, crossOffMultiples,
then deliver `sieveSize_` bytes. -/
def sieveSegment (s : SieveOfEratosthenes) : SieveOfEratosthenes × Delivery :=
  (s, { segmentLow := s.segmentLow_, sieveSize := s.sieveSize_,
        sieve := crossOffOut s })

/-- The loop body of `finish()` (lines 178-181): advance the segment window
by `sieveSize_ * NUMBERS_PER_BYTE`. -/
def advanceSegment (s : SieveOfEratosthenes) : SieveOfEratosthenes :=
  { s with
    segmentLow_ := s.segmentLow_ + s.sieveSize_ * NUMBERS_PER_BYTE
    segmentHigh_ := s.segmentHigh_ + s.sieveSize_ * NUMBERS_PER_BYTE }

/-- First multiple of 8 at least n: the zero-filled range of the loop
`for (uint_t j = sieveSize_; j % 8 != 0; j++) sieve_[j] = 0;`
(source lines 194-195). -/
def roundUp8 (n : Nat) : Nat := n + (8 - n % 8) % 8

/-- Source: the tail of `finish()` (lines 182-197): shrink `sieveSize_` so
the segment ends at the byte containing stop, sieve it, clear the bits of
the last byte whose numbers exceed stop, zero-fill up to an 8-byte boundary
and deliver.  Bytes at or beyond `roundUp8 sieveSize_` are outside every
read the driver performs; the model leaves the crossOff value there. -/
def finishLast (s : SieveOfEratosthenes) : SieveOfEratosthenes × Delivery :=
  let remainder := getByteRemainder s.stop_
  let newSize := (s.stop_ - remainder - s.segmentLow_) / NUMBERS_PER_BYTE + 1
  let s' : SieveOfEratosthenes :=
    { s with
      sieveSize_ := newSize
      segmentHigh_ := s.segmentLow_ + newSize * NUMBERS_PER_BYTE + 1 }
  (s', { segmentLow := s'.segmentLow_, sieveSize := newSize,
         sieve := fun k =>
           if newSize ≤ k ∧ k < roundUp8 newSize then 0
           else if k = newSize - 1 then
             crossOffOut s' k &&& notMask32 (stopBitIndex remainder)
           else crossOffOut s' k })

/-- Source `SieveOfEratosthenes::finish()` (lines 174-197), fuel-driven:
sieve all segments left except the last one, then sieve the last segment.
The fuel only bounds the loop; `finishTrace` supplies enough of it. -/
def finishIter : Nat → SieveOfEratosthenes → List (SieveOfEratosthenes × Delivery)
  | 0, s => [finishLast s]
  | fuel + 1, s =>
    if s.segmentHigh_ < s.stop_ then
      sieveSegment s :: finishIter fuel (advanceSegment s)
    else [finishLast s]

/-- The full run of `finish()`: the sequence of (state, delivery) pairs, in
delivery order. -/
def finishTrace (s : SieveOfEratosthenes) : List (SieveOfEratosthenes × Delivery) :=
  finishIter (s.stop_ + 1) s

/-- An integer n is decoded from a delivery when some set bit within the
delivered bytes represents it (spec section 6 bit semantics). -/
def Delivery.decodes (d : Delivery) (n : Nat) : Prop :=
  ∃ i < d.sieveSize, ∃ j < 8,
    (d.sieve i).testBit j = true ∧ n = bitInteger d.segmentLow i j

instance (d : Delivery) (n : Nat) : Decidable (d.decodes n) := by
  unfold Delivery.decodes; infer_instance

/-- An integer n is decoded somewhere in a trace of deliveries. -/
def decodedIn (t : List (SieveOfEratosthenes × Delivery)) (n : Nat) : Prop :=
  ∃ e ∈ t, e.2.decodes n

instance (t : List (SieveOfEratosthenes × Delivery)) (n : Nat) :
    Decidable (decodedIn t n) := by
  unfold decodedIn; infer_instance

/-- The set of integers reported by the whole run. -/
def decodedSet (t : List (SieveOfEratosthenes × Delivery)) : Set Nat :=
  { n | decodedIn t n }

/-- The byte sieve size actually stored by the constructor:
`getInBetween(1u, floorPowerOf2(sieveSize), 4096u) * 1024` (source lines
70-72). -/
def coercedSieveSize (sieveSize : Nat) : Nat :=
  getInBetween 1 (floorPowerOf2 sieveSize) 4096 * 1024

/-! ### Run invariant -/

/-- State invariant holding at the top of every iteration of the `finish()`
loop (and at entry to the final segment, where only the sieve size is
re-computed). -/
structure Inv (s : SieveOfEratosthenes) : Prop where
  start7 : 7 ≤ s.start_
  startStop : s.start_ ≤ s.stop_
  psLo : 13 ≤ s.limitPreSieve_
  psHi : s.limitPreSieve_ ≤ 23
  sqrtEq : s.sqrtStop_ = isqrt s.stop_
  lowMod : s.segmentLow_ % 30 = 0
  highEq : s.segmentHigh_ = s.segmentLow_ + s.sieveSize_ * 30 + 1
  sizeLarge : 1024 ≤ s.sieveSize_
  startNear : s.start_ ≤ s.segmentLow_ + 31
  firstSeg : s.segmentLow_ ≤ s.start_ →
    s.segmentLow_ = s.start_ - getByteRemainder s.start_
  lowLeStop : s.segmentLow_ ≤ s.stop_ - getByteRemainder s.stop_

/-- Bookkeeping facts for every (state, delivery) entry of a trace started
in a state satisfying the invariant. -/
def EntryOK (s0 : SieveOfEratosthenes)
    (e : SieveOfEratosthenes × Delivery) : Prop :=
  e.1.start_ = s0.start_ ∧ e.1.stop_ = s0.stop_ ∧
  e.1.limitPreSieve_ = s0.limitPreSieve_ ∧
  e.1.segmentLow_ % 30 = 0 ∧
  e.1.segmentHigh_ = e.1.segmentLow_ + e.1.sieveSize_ * 30 + 1 ∧
  1 ≤ e.1.sieveSize_ ∧
  s0.segmentLow_ ≤ e.1.segmentLow_ ∧
  e.2.segmentLow = e.1.segmentLow_ ∧ e.2.sieveSize = e.1.sieveSize_

/-! ### Allocation and teardown model for construction

The C++ constructor acquires up to five resources (the sieve byte array,
the PreSieve object and the three tiers).  `init()` wraps the four object
allocations in try/catch: on any failure `cleanUp()` deletes every non-NULL
member, then the exception is re-thrown (source lines 85-109).  An oracle
decides which allocation attempts succeed. -/

inductive Res where
  | sieveArr
  | preSieveObj
  | eratSmallObj
  | eratMediumObj
  | eratBigObj
deriving DecidableEq

/-- Which owning pointers of the engine are currently non-NULL. -/
structure Members where
  sieve_ : Bool
  preSieve_ : Bool
  eratSmall_ : Bool
  eratMedium_ : Bool
  eratBig_ : Bool
deriving DecidableEq

/-- Source `cleanUp()` (lines 85-92): `delete` every member in declaration
order; deleting NULL is a no-op. -/
def cleanUpFrees (m : Members) : List Res :=
  (if m.sieve_ then [Res.sieveArr] else []) ++
  (if m.preSieve_ then [Res.preSieveObj] else []) ++
  (if m.eratSmall_ then [Res.eratSmallObj] else []) ++
  (if m.eratMedium_ then [Res.eratMediumObj] else []) ++
  (if m.eratBig_ then [Res.eratBigObj] else [])

/-- Allocation of EratBig inside `init()`:
`if (sqrtStop_ > limitEratMedium_) eratBig_ = new EratBig(...)`; the
constructor enforces the maxStop cap (spec section 4.5). -/
def bigStep (oracle : Nat → Bool) (stop sqrtStop limitEratMedium : Nat)
    (m : Members) (a : List Res) : Except String Members × List Res × List Res :=
  if sqrtStop > limitEratMedium then
    if ¬ stop ≤ getMaxStop then
      (.error "EratBig: stop must be <= 2^64 - 2^32 * 10", a, cleanUpFrees m)
    else if oracle 4 = false then (.error "bad_alloc", a, cleanUpFrees m)
    else (.ok { m with eratBig_ := true }, a ++ [Res.eratBigObj], [])
  else (.ok m, a, [])

/-- Allocation of EratMedium inside `init()`:
`if (sqrtStop_ > limitEratSmall_) eratMedium_ = new EratMedium(...)`. -/
def mediumStep (oracle : Nat → Bool)
    (stop sqrtStop limitEratSmall limitEratMedium : Nat)
    (m : Members) (a : List Res) : Except String Members × List Res × List Res :=
  if sqrtStop > limitEratSmall then
    if oracle 3 = false then (.error "bad_alloc", a, cleanUpFrees m)
    else bigStep oracle stop sqrtStop limitEratMedium
      { m with eratMedium_ := true } (a ++ [Res.eratMediumObj])
  else bigStep oracle stop sqrtStop limitEratMedium m a

/-- Allocation of EratSmall inside `init()`:
`if (sqrtStop_ > limitPreSieve_) eratSmall_ = new EratSmall(...)`. -/
def smallStep (oracle : Nat → Bool)
    (stop sqrtStop limitPreSieve limitEratSmall limitEratMedium : Nat)
    (m : Members) (a : List Res) : Except String Members × List Res × List Res :=
  if sqrtStop > limitPreSieve then
    if oracle 2 = false then (.error "bad_alloc", a, cleanUpFrees m)
    else mediumStep oracle stop sqrtStop limitEratSmall limitEratMedium
      { m with eratSmall_ := true } (a ++ [Res.eratSmallObj])
  else mediumStep oracle stop sqrtStop limitEratSmall limitEratMedium m a

/-- The constructor with explicit allocation events: result, the list of
resources acquired (in order) and the list of resources freed (in order).
Mirrors the source constructor (lines 52-78) and `init()` (lines 94-109):
member pointers start NULL; a failure inside `init()` runs `cleanUp()` and
re-throws; a `new` that fails acquires nothing. -/
def constructAlloc (oracle : Nat → Bool)
    (start stop sieveSize preSieve : Nat) :
    Except String Members × List Res × List Res :=
  if start < 7 then (.error "SieveOfEratosthenes: start must be >= 7", [], [])
  else if start > stop then
    (.error "SieveOfEratosthenes: start must be <= stop", [], [])
  else
    if oracle 0 = false then (.error "bad_alloc", [], [])
    else
      let m1 : Members := ⟨true, false, false, false, false⟩
      if ¬ (13 ≤ preSieve ∧ preSieve ≤ 23) then
        (.error "PreSieve: limit must be >= 13 && <= 23", [Res.sieveArr],
          cleanUpFrees m1)
      else if oracle 1 = false then
        (.error "bad_alloc", [Res.sieveArr], cleanUpFrees m1)
      else
        smallStep oracle stop (isqrt stop) preSieve
          (limitEratSmallOf (coercedSieveSize sieveSize))
          (limitEratMediumOf (coercedSieveSize sieveSize))
          ⟨true, true, false, false, false⟩ [Res.sieveArr, Res.preSieveObj]

theorem self_le_mul_self (p : Nat) : p ≤ p * p := by
  rcases Nat.eq_zero_or_pos p with h | h
  · simp [h]
  · calc p = p * 1 := (Nat.mul_one p).symm
      _ ≤ p * p := Nat.mul_le_mul_left p h

theorem isqrtAux_lower {p n : Nat} (hp : p * p ≤ n) :
    ∀ fuel g, p ≤ g → p ≤ isqrtAux fuel n g := by
  intro fuel
  induction fuel with
  | zero => intro g hg; simpa [isqrtAux] using hg
  | succ fuel ih =>
    intro g hg
    simp only [isqrtAux]
    split
    · rename_i hlt
      apply ih
      -- AM-GM: (g + n/g)/2 ≥ p whenever p*p ≤ n and g ≥ 1
      rcases Nat.eq_zero_or_pos p with hp0 | hp1
      · subst hp0; exact Nat.zero_le _
      have hg1 : 1 ≤ g := le_trans hp1 hg
      have h1 : p * p / g ≤ n / g := Nat.div_le_div_right hp
      have h2 : (p * p + g * g) / g = p * p / g + g :=
        Nat.add_mul_div_left (p * p) g hg1
      have h3 : 2 * p * g ≤ p * p + g * g := by nlinarith [two_mul_le_add_sq p g]
      have h4 : 2 * p ≤ (p * p + g * g) / g := by
        have h5 := Nat.div_le_div_right (c := g) h3
        rwa [Nat.mul_div_cancel _ hg1] at h5
      have h5 : 2 * p ≤ g + n / g := by omega
      have h6 : (2 * p) / 2 ≤ (g + n / g) / 2 := Nat.div_le_div_right h5
      simpa using h6
    · exact hg

theorem isqrtAux_upper {n : Nat} :
    ∀ fuel g, g ≤ fuel → isqrtAux fuel n g * isqrtAux fuel n g ≤ n := by
  intro fuel
  induction fuel with
  | zero =>
    intro g hg
    interval_cases g
    simp [isqrtAux]
  | succ fuel ih =>
    intro g hg
    simp only [isqrtAux]
    split
    · rename_i hlt
      exact ih _ (by omega)
    · rename_i hge
      by_contra hcon
      push_neg at hcon
      have hg1 : 1 ≤ g := by
        rcases Nat.eq_zero_or_pos g with h0 | h1
        · subst h0; omega
        · exact h1
      have hdiv : n / g < g := (Nat.div_lt_iff_lt_mul hg1).2 hcon
      omega

theorem le_isqrt {p n : Nat} (hp : p * p ≤ n) : p ≤ isqrt n := by
  have hpple := self_le_mul_self p
  unfold isqrt
  split
  · omega
  · exact isqrtAux_lower hp n n (by omega)

theorem isqrt_mul_self_le (n : Nat) : isqrt n * isqrt n ≤ n := by
  unfold isqrt
  split
  · rename_i h1; interval_cases n <;> simp
  · exact isqrtAux_upper n n le_rfl

theorem isqrt_eq_sqrt (n : Nat) : isqrt n = Nat.sqrt n := by
  apply le_antisymm
  · exact Nat.le_sqrt.2 (isqrt_mul_self_le n)
  · have h := Nat.sqrt_le' n
    rw [pow_two] at h
    exact le_isqrt h

theorem bitsToNat_lt (f : Nat → Bool) : ∀ k, bitsToNat f k < 2 ^ k := by
  intro k
  induction k with
  | zero => simp [bitsToNat]
  | succ k ih =>
    have h2 : (2 : Nat) ^ (k + 1) = 2 ^ k + 2 ^ k := by ring
    cases hf : f k <;> simp [bitsToNat, hf] <;> omega

theorem testBit_high_of_lt {x j : Nat} (hx : x < 2 ^ j) : x.testBit j = false := by
  rw [Nat.testBit_to_div_mod]
  have h : x / 2 ^ j = 0 := Nat.div_eq_of_lt hx
  simp [h]

theorem testBit_bitsToNat (f : Nat → Bool) :
    ∀ k j, j < k → (bitsToNat f k).testBit j = f j := by
  intro k
  induction k with
  | zero => intro j hj; omega
  | succ k ih =>
    intro j hj
    simp only [bitsToNat]
    rcases Nat.lt_or_ge j k with hlt | hge
    · -- adding 2^k (or nothing) does not change bits below k
      cases hf : f k
      · simpa using ih j hlt
      · rw [Nat.add_comm, cond_true, Nat.testBit_two_pow_add_gt hlt]
        exact ih j hlt
    · -- here j = k: the added bit is exactly f k
      have hjk : j = k := by omega
      subst hjk
      have hlow : (bitsToNat f j).testBit j = false :=
        testBit_high_of_lt (bitsToNat_lt f j)
      cases hf : f j
      · simpa using hlow
      · rw [Nat.add_comm, cond_true, Nat.testBit_two_pow_add_eq, hlow]
        rfl

theorem testBit_byteOfBits (f : Nat → Bool) {j : Nat} (hj : j < 8) :
    (byteOfBits f).testBit j = f j :=
  testBit_bitsToNat f 8 j hj

theorem byteOfBits_lt (f : Nat → Bool) : byteOfBits f < 256 :=
  bitsToNat_lt f 8

theorem testBit_255 (j : Nat) : (255 : Nat).testBit j = decide (j < 8) := by
  rcases Nat.lt_or_ge j 8 with h | h
  · interval_cases j <;> decide
  · have h2 : (255 : Nat) < 2 ^ j :=
      lt_of_lt_of_le (by norm_num) (Nat.pow_le_pow_right (by norm_num) h)
    simp [testBit_high_of_lt h2, Nat.lt_iff_add_one_le]
    omega

theorem startBitIndex_spec :
    ∀ r < 32, ∀ j < 8, (startBitIndex r ≤ j ↔ r ≤ bitValues j) := by decide

theorem stopBitIndex_spec :
    ∀ r < 32, ∀ j < 8, (j < stopBitIndex r ↔ bitValues j ≤ r) := by decide

theorem testBit_startMask {r j : Nat} (hr : r < 32) (hj : j < 8) :
    ((255 : Nat) <<< startBitIndex r).testBit j = decide (r ≤ bitValues j) := by
  have hidx : startBitIndex r ≤ 7 := by revert r; decide
  rw [Nat.testBit_shiftLeft, testBit_255]
  rcases Nat.lt_or_ge j (startBitIndex r) with h | h
  · have h1 : ¬ r ≤ bitValues j := by
      intro hcon
      exact absurd ((startBitIndex_spec r hr j hj).2 hcon) (by omega)
    simp [h1]
    omega
  · have h1 : r ≤ bitValues j := (startBitIndex_spec r hr j hj).1 h
    simp [h1]
    omega

theorem testBit_notMask32 :
    ∀ i < 9, ∀ j < 8, (notMask32 i).testBit j = decide (j < i) := by decide

theorem testBit_stopMask {r j : Nat} (hr : r < 32) (hj : j < 8) :
    (notMask32 (stopBitIndex r)).testBit j = decide (bitValues j ≤ r) := by
  have hidx : stopBitIndex r ≤ 8 := by revert r; decide
  rw [testBit_notMask32 (stopBitIndex r) (by omega) j hj]
  rcases Nat.lt_or_ge j (stopBitIndex r) with h | h
  · have h1 : bitValues j ≤ r := (stopBitIndex_spec r hr j hj).1 h
    simp [h, h1]
  · have h1 : ¬ bitValues j ≤ r := by
      intro hcon
      exact absurd ((stopBitIndex_spec r hr j hj).2 hcon) (by omega)
    simp [h1]
    omega

theorem primeB_iff {n : Nat} : primeB n = true ↔ n.Prime := by
  rw [Nat.prime_def_lt]
  simp only [primeB, Bool.and_eq_true, List.all_eq_true, List.mem_range,
    decide_eq_true_eq, Bool.or_eq_true]
  constructor
  · rintro ⟨h2, hall⟩
    refine ⟨h2, fun m hm hdvd => ?_⟩
    rcases hall m hm with hlt | hmod
    · -- m < 2; m = 0 divides only 0, so m = 1
      interval_cases m
      · exact absurd (Nat.eq_zero_of_zero_dvd hdvd) (by omega)
      · rfl
    · exact absurd (Nat.dvd_iff_mod_eq_zero.1 hdvd) hmod
  · rintro ⟨h2, hall⟩
    refine ⟨h2, fun d hd => ?_⟩
    by_contra hcon
    push_neg at hcon
    obtain ⟨hd2, hmod⟩ := hcon
    have hdvd : d ∣ n := Nat.dvd_of_mod_eq_zero hmod
    have := hall d hd hdvd
    omega

theorem smallDivB_iff {limit n : Nat} :
    smallDivB limit n = true ↔ ∃ q, q.Prime ∧ q ≤ limit ∧ q ∣ n := by
  simp only [smallDivB, List.any_eq_true, List.mem_range, Bool.and_eq_true,
    decide_eq_true_eq]
  constructor
  · rintro ⟨q, hq, hprime, hmod⟩
    exact ⟨q, primeB_iff.1 hprime, by omega, Nat.dvd_of_mod_eq_zero hmod⟩
  · rintro ⟨q, hprime, hle, hdvd⟩
    exact ⟨q, by omega, primeB_iff.2 hprime, Nat.dvd_iff_mod_eq_zero.1 hdvd⟩

theorem tierHitB_iff {limit sqrtStop n : Nat} :
    tierHitB limit sqrtStop n = true ↔
      ∃ p, p.Prime ∧ limit < p ∧ p ≤ sqrtStop ∧ p ∣ n ∧ p * p ≤ n := by
  simp only [tierHitB, List.any_eq_true, List.mem_range, Bool.and_eq_true,
    decide_eq_true_eq]
  constructor
  · rintro ⟨p, hp, ⟨⟨hprime, hgt⟩, hmod⟩, hsq⟩
    exact ⟨p, primeB_iff.1 hprime, hgt, by omega, Nat.dvd_of_mod_eq_zero hmod, hsq⟩
  · rintro ⟨p, hprime, hgt, hle, hdvd, hsq⟩
    exact ⟨p, by omega, ⟨⟨primeB_iff.2 hprime, hgt⟩,
      Nat.dvd_iff_mod_eq_zero.1 hdvd⟩, hsq⟩

theorem advanceSegment_start (s : SieveOfEratosthenes) :
    (advanceSegment s).start_ = s.start_ := rfl

theorem advanceSegment_stop (s : SieveOfEratosthenes) :
    (advanceSegment s).stop_ = s.stop_ := rfl

theorem advanceSegment_size (s : SieveOfEratosthenes) :
    (advanceSegment s).sieveSize_ = s.sieveSize_ := rfl

theorem advanceSegment_low (s : SieveOfEratosthenes) :
    (advanceSegment s).segmentLow_ = s.segmentLow_ + s.sieveSize_ * 30 := rfl

theorem advanceSegment_high (s : SieveOfEratosthenes) :
    (advanceSegment s).segmentHigh_ = s.segmentHigh_ + s.sieveSize_ * 30 := rfl

/-! ### Wheel arithmetic -/

theorem numbersPerByte_eq : NUMBERS_PER_BYTE = 30 := rfl

theorem bitValues_bounds : ∀ j < 8, 7 ≤ bitValues j ∧ bitValues j ≤ 31 := by decide

theorem bitValues_residues :
    ∀ j < 8, bitValues j % 2 = 1 ∧ bitValues j % 3 ≠ 0 ∧ bitValues j % 5 ≠ 0 := by
  decide

theorem bitValues_prime : ∀ j < 8, Nat.Prime (bitValues j) := by decide

theorem getByteRemainder_eq (n : Nat) :
    getByteRemainder n = if n % 30 ≤ 1 then n % 30 + 30 else n % 30 := by
  simp [getByteRemainder, NUMBERS_PER_BYTE]

theorem getByteRemainder_bounds (n : Nat) :
    2 ≤ getByteRemainder n ∧ getByteRemainder n ≤ 31 := by
  rw [getByteRemainder_eq]; split <;> omega

theorem getByteRemainder_le {n : Nat} (h : 2 ≤ n) : getByteRemainder n ≤ n := by
  rw [getByteRemainder_eq]; split <;> omega

theorem sub_getByteRemainder_mod (n : Nat) :
    (n - getByteRemainder n) % 30 = 0 := by
  rw [getByteRemainder_eq]; split <;> omega

theorem byteFloor_mono {a b : Nat} (ha : 2 ≤ a) (hab : a ≤ b) :
    a - getByteRemainder a ≤ b - getByteRemainder b := by
  rw [getByteRemainder_eq, getByteRemainder_eq]
  split <;> split <;> omega

theorem bitInteger_residues {segmentLow i j : Nat} (h30 : segmentLow % 30 = 0)
    (hj : j < 8) :
    bitInteger segmentLow i j % 2 = 1 ∧ bitInteger segmentLow i j % 3 ≠ 0 ∧
      bitInteger segmentLow i j % 5 ≠ 0 := by
  have hr := bitValues_residues j hj
  simp only [bitInteger, numbersPerByte_eq]
  omega

theorem bitInteger_range {segmentLow i j : Nat} (hj : j < 8) :
    segmentLow + 30 * i + 7 ≤ bitInteger segmentLow i j ∧
      bitInteger segmentLow i j ≤ segmentLow + 30 * i + 31 := by
  have hb := bitValues_bounds j hj
  simp only [bitInteger, numbersPerByte_eq]
  omega

/-- Every wheel-coprime integer inside the segment window is represented by
a unique bitmap position; here is the existence half. -/
theorem exists_position {segmentLow ss n : Nat} (h30 : segmentLow % 30 = 0)
    (h2 : n % 2 = 1) (h3 : n % 3 ≠ 0) (h5 : n % 5 ≠ 0)
    (hlo : segmentLow + 2 ≤ n) (hhi : n ≤ segmentLow + 30 * ss + 1) :
    ∃ i < ss, ∃ j < 8, n = bitInteger segmentLow i j := by
  obtain ⟨m, rfl⟩ : ∃ m, n = segmentLow + m := ⟨n - segmentLow, by omega⟩
  have hd := Nat.div_add_mod m 30
  by_cases h1 : (segmentLow + m) % 30 = 1
  · have hdm : m % 30 = 1 := by omega
    have hq : 1 ≤ m / 30 := by omega
    refine ⟨m / 30 - 1, by omega, 7, by norm_num, ?_⟩
    show segmentLow + m = segmentLow + 30 * (m / 30 - 1) + 31
    omega
  · have hm2 : m % 2 = 1 := by omega
    have hm3 : m % 3 ≠ 0 := by omega
    have hm5 : m % 5 ≠ 0 := by omega
    have hm1 : m % 30 ≠ 1 := by omega
    have h7 : m % 30 = 7 ∨ m % 30 = 11 ∨ m % 30 = 13 ∨ m % 30 = 17 ∨
        m % 30 = 19 ∨ m % 30 = 23 ∨ m % 30 = 29 := by
      obtain ⟨r, hr, hreq⟩ : ∃ r, r < 30 ∧ m % 30 = r :=
        ⟨m % 30, Nat.mod_lt _ (by norm_num), rfl⟩
      interval_cases r <;> omega
    have hex : ∃ j, j < 8 ∧ bitValues j = m % 30 := by
      rcases h7 with h | h | h | h | h | h | h
      exacts [⟨0, by norm_num, by rw [h]; decide⟩, ⟨1, by norm_num, by rw [h]; decide⟩,
        ⟨2, by norm_num, by rw [h]; decide⟩, ⟨3, by norm_num, by rw [h]; decide⟩,
        ⟨4, by norm_num, by rw [h]; decide⟩, ⟨5, by norm_num, by rw [h]; decide⟩,
        ⟨6, by norm_num, by rw [h]; decide⟩]
    obtain ⟨j, hj8, hbj⟩ := hex
    have hbnd := bitValues_bounds j hj8
    have hm7 : 7 ≤ m % 30 := by rcases h7 with h | h | h | h | h | h | h <;> omega
    refine ⟨m / 30, by omega, j, hj8, ?_⟩
    simp only [bitInteger, numbersPerByte_eq]
    rw [hbj]
    omega

theorem prime_not235_ge7 {p : Nat} (hp : p.Prime) (h2 : p ≠ 2) (h3 : p ≠ 3)
    (h5 : p ≠ 5) : 7 ≤ p := by
  by_contra h
  push_neg at h
  interval_cases p <;> first | omega | (exact absurd hp (by norm_num))

theorem coercedSieveSize_bounds (z : Nat) :
    1024 ≤ coercedSieveSize z ∧ coercedSieveSize z ≤ 4194304 := by
  unfold coercedSieveSize getInBetween
  split_ifs <;> omega

theorem construct_ok {start stop sieveSize preSieve : Nat}
    {s : SieveOfEratosthenes}
    (h : construct start stop sieveSize preSieve = .ok s) :
    s = { start_ := start, stop_ := stop, sqrtStop_ := isqrt stop,
          limitPreSieve_ := preSieve,
          limitEratSmall_ := limitEratSmallOf (coercedSieveSize sieveSize),
          limitEratMedium_ := limitEratMediumOf (coercedSieveSize sieveSize),
          sieveSize_ := coercedSieveSize sieveSize,
          segmentLow_ := start - getByteRemainder start,
          segmentHigh_ := start - getByteRemainder start +
            coercedSieveSize sieveSize * NUMBERS_PER_BYTE + 1 } ∧
      7 ≤ start ∧ start ≤ stop ∧ 13 ≤ preSieve ∧ preSieve ≤ 23 := by
  by_cases h1 : start < 7
  · unfold construct at h
    rw [if_pos h1] at h
    exact absurd h (by simp)
  by_cases h2 : start > stop
  · unfold construct at h
    rw [if_neg h1, if_pos h2] at h
    exact absurd h (by simp)
  unfold construct init preSieveCtor eratBigCtor at h
  rw [if_neg h1, if_neg h2] at h
  dsimp only at h
  by_cases hps : 13 ≤ preSieve ∧ preSieve ≤ 23
  · rw [if_pos hps] at h
    dsimp only [Except.bind] at h
    by_cases hbig : isqrt stop >
        limitEratMediumOf (getInBetween 1 (floorPowerOf2 sieveSize) 4096 * 1024)
    · rw [if_pos hbig] at h
      by_cases hmax : stop ≤ getMaxStop
      · rw [if_pos hmax] at h
        dsimp only [Except.bind] at h
        simp only [Except.ok.injEq] at h
        refine ⟨?_, by omega, by omega, by omega, by omega⟩
        rw [← h]
        rfl
      · rw [if_neg hmax] at h
        dsimp only [Except.bind] at h
        exact absurd h (by simp)
    · rw [if_neg hbig] at h
      simp only [Except.ok.injEq] at h
      refine ⟨?_, by omega, by omega, by omega, by omega⟩
      rw [← h]
      rfl
  · rw [if_neg hps] at h
    dsimp only [Except.bind] at h
    exact absurd h (by simp)

theorem prime_ge7_residues {n : Nat} (hn : n.Prime) (h7 : 7 ≤ n) :
    n % 2 = 1 ∧ n % 3 ≠ 0 ∧ n % 5 ≠ 0 := by
  refine ⟨?_, ?_, ?_⟩
  · rcases Nat.mod_two_eq_zero_or_one n with h | h
    · exfalso
      rcases (hn.eq_one_or_self_of_dvd 2 (Nat.dvd_of_mod_eq_zero h)) with h1 | h1 <;>
        omega
    · exact h
  · intro h
    rcases (hn.eq_one_or_self_of_dvd 3 (Nat.dvd_of_mod_eq_zero h)) with h1 | h1 <;>
      omega
  · intro h
    rcases (hn.eq_one_or_self_of_dvd 5 (Nat.dvd_of_mod_eq_zero h)) with h1 | h1 <;>
      omega

theorem construct_inv {start stop sieveSize preSieve : Nat}
    {s : SieveOfEratosthenes}
    (h : construct start stop sieveSize preSieve = .ok s) : Inv s := by
  obtain ⟨rfl, h7, hss, hps1, hps2⟩ := construct_ok h
  have hrem := getByteRemainder_bounds start
  have hremle := getByteRemainder_le (n := start) (by omega)
  have hcs := coercedSieveSize_bounds sieveSize
  refine ⟨h7, hss, hps1, hps2, rfl, ?_, rfl, hcs.1,
    by show start ≤ start - getByteRemainder start + 31; omega, fun _ => rfl, ?_⟩
  · exact sub_getByteRemainder_mod start
  · exact byteFloor_mono (by omega) hss

theorem inv_advance {s : SieveOfEratosthenes} (hInv : Inv s)
    (hcond : s.segmentHigh_ < s.stop_) : Inv (advanceSegment s) := by
  obtain ⟨h7, hss, hps1, hps2, hsq, hlow, hhigh, hsz, hnear, hfirst, hstop⟩ := hInv
  have hrem := getByteRemainder_bounds s.stop_
  unfold advanceSegment
  refine ⟨h7, hss, hps1, hps2, hsq, ?_, ?_, hsz, ?_, ?_, ?_⟩
  · simp only [numbersPerByte_eq]
    omega
  · simp only [numbersPerByte_eq]
    omega
  · simp only [numbersPerByte_eq]
    omega
  · simp only [numbersPerByte_eq]
    intro hle
    exfalso
    omega
  · simp only [numbersPerByte_eq]
    rw [getByteRemainder_eq] at hstop ⊢
    split at hstop <;> split <;> omega

/-! ### Per-segment bit characterization -/

theorem crossOffOut_testBit {s : SieveOfEratosthenes} {i j : Nat} (hj : j < 8) :
    (crossOffOut s i).testBit j =
      ((preSieveOut s i).testBit j &&
        ! tierHitB s.limitPreSieve_ s.sqrtStop_ (bitInteger s.segmentLow_ i j)) := by
  unfold crossOffOut
  exact testBit_byteOfBits _ hj

theorem preSieveOut_testBit_iff {s : SieveOfEratosthenes} {i j : Nat} (hj : j < 8)
    (h7 : 7 ≤ s.start_)
    (hnear : s.start_ ≤ s.segmentLow_ + 31)
    (hfirst : s.segmentLow_ ≤ s.start_ →
      s.segmentLow_ = s.start_ - getByteRemainder s.start_) :
    ((preSieveOut s i).testBit j = true) ↔
      ((smallDivB s.limitPreSieve_ (bitInteger s.segmentLow_ i j) = false ∨
          (s.segmentLow_ ≤ s.start_ ∧ s.start_ ≤ s.limitPreSieve_ ∧ i = 0)) ∧
        s.start_ ≤ bitInteger s.segmentLow_ i j) := by
  have hb := bitValues_bounds j hj
  unfold preSieveOut
  by_cases hc : s.segmentLow_ ≤ s.start_ ∧ i = 0
  · rw [if_pos hc]
    obtain ⟨hle, hi0⟩ := hc
    subst hi0
    have hrem := getByteRemainder_bounds s.start_
    have hremle := getByteRemainder_le (n := s.start_) (by omega)
    have hlow := hfirst hle
    have hr32 : getByteRemainder s.start_ < 32 := by omega
    have hnval : bitInteger s.segmentLow_ 0 j = s.segmentLow_ + bitValues j := by
      simp [bitInteger, numbersPerByte_eq]
    rw [Nat.testBit_land, testBit_startMask hr32 hj]
    by_cases hres : s.start_ ≤ s.limitPreSieve_
    · rw [if_pos hres, testBit_255]
      simp only [hj, decide_eq_true_eq, Bool.and_eq_true, decide_eq_true_eq]
      constructor
      · rintro ⟨-, hge⟩
        exact ⟨Or.inr ⟨hle, hres, by trivial⟩, by omega⟩
      · rintro ⟨-, hge⟩
        exact ⟨trivial, by omega⟩
    · rw [if_neg hres]
      rw [doItByte, testBit_byteOfBits _ hj]
      simp only [Bool.and_eq_true, Bool.not_eq_true', decide_eq_true_eq]
      constructor
      · rintro ⟨hsd, hge⟩
        exact ⟨Or.inl hsd, by omega⟩
      · rintro ⟨hsd, hge⟩
        rcases hsd with hsd | ⟨-, habs, -⟩
        · exact ⟨hsd, by omega⟩
        · exact absurd habs hres
  · rw [if_neg hc]
    rw [doItByte, testBit_byteOfBits _ hj]
    simp only [Bool.not_eq_true', decide_eq_true_eq]
    have hrange := @bitInteger_range s.segmentLow_ i j hj
    have hstart_le : s.start_ ≤ bitInteger s.segmentLow_ i j := by
      by_cases hA : s.segmentLow_ ≤ s.start_
      · have hi : i ≠ 0 := fun h0 => hc ⟨hA, h0⟩
        have hi1 : 1 ≤ i := Nat.pos_of_ne_zero hi
        omega
      · omega
    constructor
    · intro hsd
      exact ⟨Or.inl hsd, hstart_le⟩
    · rintro ⟨hsd, -⟩
      rcases hsd with hsd | ⟨hA, -, hi0⟩
      · exact hsd
      · exact absurd ⟨hA, hi0⟩ hc

theorem crossOffOut_testBit_iff {s : SieveOfEratosthenes} {i j : Nat} (hj : j < 8)
    (h7 : 7 ≤ s.start_) (hps23 : s.limitPreSieve_ ≤ 23)
    (hsq : s.sqrtStop_ = isqrt s.stop_)
    (hlowmod : s.segmentLow_ % 30 = 0)
    (hnear : s.start_ ≤ s.segmentLow_ + 31)
    (hfirst : s.segmentLow_ ≤ s.start_ →
      s.segmentLow_ = s.start_ - getByteRemainder s.start_)
    (hstop : bitInteger s.segmentLow_ i j ≤ s.stop_) :
    ((crossOffOut s i).testBit j = true) ↔
      (s.start_ ≤ bitInteger s.segmentLow_ i j ∧
        (bitInteger s.segmentLow_ i j).Prime) := by
  have hres := bitInteger_residues (i := i) hlowmod hj
  have hrange := @bitInteger_range s.segmentLow_ i j hj
  rw [crossOffOut_testBit hj, Bool.and_eq_true, Bool.not_eq_true',
    preSieveOut_testBit_iff hj h7 hnear hfirst]
  constructor
  · rintro ⟨⟨hsd, hstart⟩, htier⟩
    refine ⟨hstart, ?_⟩
    by_contra hnp
    have hn7 : 7 ≤ bitInteger s.segmentLow_ i j := by omega
    have hne1 : bitInteger s.segmentLow_ i j ≠ 1 := by omega
    have hpf := Nat.minFac_prime hne1
    have hdvd := Nat.minFac_dvd (bitInteger s.segmentLow_ i j)
    have hsq2 : (bitInteger s.segmentLow_ i j).minFac *
        (bitInteger s.segmentLow_ i j).minFac ≤ bitInteger s.segmentLow_ i j := by
      have hx := Nat.minFac_sq_le_self (by omega) hnp
      rwa [pow_two] at hx
    have hge7 : 7 ≤ (bitInteger s.segmentLow_ i j).minFac := by
      refine prime_not235_ge7 hpf ?_ ?_ ?_ <;>
        exact fun he => absurd (Nat.dvd_iff_mod_eq_zero.1 (he ▸ hdvd)) (by omega)
    rcases le_or_lt (bitInteger s.segmentLow_ i j).minFac s.limitPreSieve_ with
      hle | hgt
    · have hsdT : smallDivB s.limitPreSieve_ (bitInteger s.segmentLow_ i j) = true :=
        smallDivB_iff.2 ⟨_, hpf, hle, hdvd⟩
      rcases hsd with hF | ⟨hsegle, hstartle, hi0⟩
      · rw [hsdT] at hF
        exact absurd hF (by simp)
      · subst hi0
        have hseg0 : s.segmentLow_ = 0 := by
          have hf := hfirst hsegle
          rw [getByteRemainder_eq] at hf
          split at hf <;> omega
        have hnb : bitInteger s.segmentLow_ 0 j = bitValues j := by
          simp [bitInteger, hseg0, numbersPerByte_eq]
        exact absurd (hnb ▸ bitValues_prime j hj) hnp
    · have hsqle : (bitInteger s.segmentLow_ i j).minFac ≤ s.sqrtStop_ := by
        rw [hsq]
        exact le_isqrt (le_trans hsq2 hstop)
      have hT : tierHitB s.limitPreSieve_ s.sqrtStop_
          (bitInteger s.segmentLow_ i j) = true :=
        tierHitB_iff.2 ⟨_, hpf, hgt, hsqle, hdvd, hsq2⟩
      rw [hT] at htier
      exact absurd htier (by simp)
  · rintro ⟨hstart, hprime⟩
    have hn7 : 7 ≤ bitInteger s.segmentLow_ i j := le_trans h7 hstart
    refine ⟨⟨?_, hstart⟩, ?_⟩
    · by_cases hNL : bitInteger s.segmentLow_ i j ≤ s.limitPreSieve_
      · refine Or.inr ⟨?_, le_trans hstart hNL, ?_⟩ <;> omega
      · left
        cases hsd : smallDivB s.limitPreSieve_ (bitInteger s.segmentLow_ i j)
        · rfl
        · exfalso
          obtain ⟨q, hq, hqle, hqdvd⟩ := smallDivB_iff.1 hsd
          rcases hprime.eq_one_or_self_of_dvd q hqdvd with h1 | h1
          · exact absurd h1 hq.ne_one
          · omega
    · cases hT : tierHitB s.limitPreSieve_ s.sqrtStop_ (bitInteger s.segmentLow_ i j)
      · rfl
      · exfalso
        obtain ⟨p, hp, hgt, hle, hdvd, hsqp⟩ := tierHitB_iff.1 hT
        rcases hprime.eq_one_or_self_of_dvd p hdvd with h1 | h1
        · exact absurd h1 hp.ne_one
        · rw [h1] at hsqp
          have h77 := Nat.mul_le_mul
            (show 7 ≤ bitInteger s.segmentLow_ i j by omega)
            (le_refl (bitInteger s.segmentLow_ i j))
          omega

/-! ### Segment-level decoding -/

theorem sieveSegment_decodes {s : SieveOfEratosthenes} (hInv : Inv s)
    (hmid : s.segmentHigh_ < s.stop_) (n : Nat) :
    (sieveSegment s).2.decodes n ↔
      (s.start_ ≤ n ∧ s.segmentLow_ + 2 ≤ n ∧ n ≤ s.segmentHigh_ ∧ n.Prime) := by
  obtain ⟨h7, hss, hps1, hps2, hsq, hlow, hhigh, hsz, hnear, hfirst, hstop⟩ := hInv
  unfold sieveSegment Delivery.decodes
  dsimp only
  constructor
  · rintro ⟨i, hi, j, hj, hbit, rfl⟩
    have hrange := @bitInteger_range s.segmentLow_ i j hj
    have hle : bitInteger s.segmentLow_ i j ≤ s.segmentHigh_ := by omega
    have hstop2 : bitInteger s.segmentLow_ i j ≤ s.stop_ := by omega
    have hchar :=
      (crossOffOut_testBit_iff hj h7 hps2 hsq hlow hnear hfirst hstop2).1 hbit
    exact ⟨hchar.1, by omega, hle, hchar.2⟩
  · rintro ⟨hstart, hlo2, hhi2, hprime⟩
    have hres := prime_ge7_residues hprime (by omega)
    obtain ⟨i, hi, j, hj, heq⟩ :=
      @exists_position s.segmentLow_ s.sieveSize_ n hlow hres.1 hres.2.1
        hres.2.2 hlo2 (by omega)
    subst heq
    refine ⟨i, hi, j, hj, ?_, rfl⟩
    have hrange := @bitInteger_range s.segmentLow_ i j hj
    exact (crossOffOut_testBit_iff hj h7 hps2 hsq hlow hnear hfirst
      (by omega)).2 ⟨hstart, hprime⟩

theorem finishLast_decodes {s : SieveOfEratosthenes} (hInv : Inv s)
    (hlast : s.stop_ ≤ s.segmentHigh_) (n : Nat) :
    (finishLast s).2.decodes n ↔
      (s.start_ ≤ n ∧ s.segmentLow_ + 2 ≤ n ∧ n ≤ s.stop_ ∧ n.Prime) := by
  obtain ⟨h7, hss, hps1, hps2, hsq, hlow, hhigh, hsz, hnear, hfirst, hstop⟩ := hInv
  have hremb := getByteRemainder_bounds s.stop_
  have hsf : (s.stop_ - getByteRemainder s.stop_) % 30 = 0 :=
    sub_getByteRemainder_mod s.stop_
  have hr32 : getByteRemainder s.stop_ < 32 := by omega
  have hremle : getByteRemainder s.stop_ ≤ s.stop_ := getByteRemainder_le (by omega)
  have hexp :
      30 * ((s.stop_ - getByteRemainder s.stop_ - s.segmentLow_) / 30) =
        s.stop_ - getByteRemainder s.stop_ - s.segmentLow_ := by omega
  unfold finishLast Delivery.decodes
  dsimp only
  simp only [numbersPerByte_eq]
  constructor
  · rintro ⟨i, hi, j, hj, hbit, rfl⟩
    rw [if_neg (by omega)] at hbit
    have hrange := @bitInteger_range s.segmentLow_ i j hj
    have hbi : bitInteger s.segmentLow_ i j =
        s.segmentLow_ + 30 * i + bitValues j := by
      simp [bitInteger, numbersPerByte_eq]
    by_cases hieq :
        i = (s.stop_ - getByteRemainder s.stop_ - s.segmentLow_) / 30 + 1 - 1
    · rw [if_pos hieq] at hbit
      rw [Nat.testBit_land, testBit_stopMask hr32 hj, Bool.and_eq_true,
        decide_eq_true_eq] at hbit
      obtain ⟨hcross, hbv⟩ := hbit
      have hstop2 : bitInteger s.segmentLow_ i j ≤ s.stop_ := by omega
      have hchar :=
        (crossOffOut_testBit_iff hj h7 hps2 hsq hlow hnear hfirst hstop2).1 hcross
      exact ⟨hchar.1, by omega, hstop2, hchar.2⟩
    · rw [if_neg hieq] at hbit
      have hstop2 : bitInteger s.segmentLow_ i j ≤ s.stop_ := by omega
      have hchar :=
        (crossOffOut_testBit_iff hj h7 hps2 hsq hlow hnear hfirst hstop2).1 hbit
      exact ⟨hchar.1, by omega, hstop2, hchar.2⟩
  · rintro ⟨hstart, hlo2, hhi2, hprime⟩
    have hres := prime_ge7_residues hprime (by omega)
    obtain ⟨i, hi, j, hj, heq⟩ :=
      @exists_position s.segmentLow_
        ((s.stop_ - getByteRemainder s.stop_ - s.segmentLow_) / 30 + 1) n
        hlow hres.1 hres.2.1 hres.2.2 hlo2 (by omega)
    subst heq
    have hrange := @bitInteger_range s.segmentLow_ i j hj
    have hbi : bitInteger s.segmentLow_ i j =
        s.segmentLow_ + 30 * i + bitValues j := by
      simp [bitInteger, numbersPerByte_eq]
    refine ⟨i, hi, j, hj, ?_, rfl⟩
    rw [if_neg (by omega)]
    have hcross :=
      (crossOffOut_testBit_iff hj h7 hps2 hsq hlow hnear hfirst hhi2).2
        ⟨hstart, hprime⟩
    by_cases hieq :
        i = (s.stop_ - getByteRemainder s.stop_ - s.segmentLow_) / 30 + 1 - 1
    · rw [if_pos hieq, Nat.testBit_land, testBit_stopMask hr32 hj,
        Bool.and_eq_true, decide_eq_true_eq]
      exact ⟨hcross, by omega⟩
    · rw [if_neg hieq]
      exact hcross

/-! ### The full run -/

theorem finishIter_decodes :
    ∀ (fuel : Nat) (s : SieveOfEratosthenes), Inv s →
      s.stop_ ≤ s.segmentHigh_ + fuel * (s.sieveSize_ * 30) →
      ∀ n, (decodedIn (finishIter fuel s) n ↔
        (s.start_ ≤ n ∧ s.segmentLow_ + 2 ≤ n ∧ n ≤ s.stop_ ∧ n.Prime)) := by
  intro fuel
  induction fuel with
  | zero =>
    intro s hInv hfuel n
    have h0 : s.stop_ ≤ s.segmentHigh_ := by omega
    simp only [finishIter, decodedIn, List.mem_singleton, exists_eq_left]
    exact finishLast_decodes hInv h0 n
  | succ fuel ih =>
    intro s hInv hfuel n
    simp only [finishIter]
    by_cases hcond : s.segmentHigh_ < s.stop_
    · rw [if_pos hcond]
      have hInv' := inv_advance hInv hcond
      have ha : (advanceSegment s).segmentLow_ =
          s.segmentLow_ + s.sieveSize_ * 30 := by
        simp [advanceSegment, numbersPerByte_eq]
      have hfuel' : (advanceSegment s).stop_ ≤ (advanceSegment s).segmentHigh_ +
          fuel * ((advanceSegment s).sieveSize_ * 30) := by
        simp only [advanceSegment, numbersPerByte_eq]
        have hm : (fuel + 1) * (s.sieveSize_ * 30) =
            fuel * (s.sieveSize_ * 30) + s.sieveSize_ * 30 := by ring
        omega
      have hrest := ih (advanceSegment s) hInv' hfuel' n
      rw [ha] at hrest
      have hhead := sieveSegment_decodes hInv hcond n
      simp only [decodedIn, List.mem_cons] at hrest hhead ⊢
      have hhigh := hInv.highEq
      constructor
      · rintro ⟨e, he | he, hdec⟩
        · subst he
          have h1 := hhead.1 hdec
          exact ⟨h1.1, h1.2.1, by omega, h1.2.2.2⟩
        · have h1 := hrest.1 ⟨e, he, hdec⟩
          exact ⟨h1.1, by omega, h1.2.2⟩
      · rintro ⟨h1, h2, h3, h4⟩
        by_cases hn : n ≤ s.segmentHigh_
        · exact ⟨_, Or.inl rfl, hhead.2 ⟨h1, h2, hn, h4⟩⟩
        · obtain ⟨e, he, hdec⟩ := hrest.2 ⟨h1, by omega, h3, h4⟩
          exact ⟨e, Or.inr he, hdec⟩
    · rw [if_neg hcond]
      simp only [decodedIn, List.mem_singleton, exists_eq_left]
      exact finishLast_decodes hInv (by omega) n

/-! ### Trace utilities -/

theorem finishIter_ne_nil (fuel : Nat) (s : SieveOfEratosthenes) :
    finishIter fuel s ≠ [] := by
  cases fuel with
  | zero => simp [finishIter]
  | succ fuel =>
    simp only [finishIter]
    split <;> simp

theorem finishLast_entryOK {s : SieveOfEratosthenes} (hInv : Inv s) :
    EntryOK s (finishLast s) := by
  obtain ⟨h7, hss, hps1, hps2, hsq, hlow, hhigh, hsz, hnear, hfirst, hstop⟩ := hInv
  unfold finishLast EntryOK
  dsimp only
  refine ⟨rfl, rfl, rfl, hlow, rfl, ?_, le_refl _, rfl, rfl⟩
  simp only [numbersPerByte_eq]
  omega

theorem finishIter_entries :
    ∀ (fuel : Nat) (s : SieveOfEratosthenes), Inv s →
      ∀ e ∈ finishIter fuel s, EntryOK s e := by
  intro fuel
  induction fuel with
  | zero =>
    intro s hInv e he
    simp only [finishIter, List.mem_singleton] at he
    subst he
    exact finishLast_entryOK hInv
  | succ fuel ih =>
    intro s hInv e he
    simp only [finishIter] at he
    by_cases hcond : s.segmentHigh_ < s.stop_
    · rw [if_pos hcond] at he
      rcases List.mem_cons.1 he with he | he
      · subst he
        obtain ⟨h7, hss, hps1, hps2, hsq, hlow, hhigh, hsz, hnear, hfirst, hstop⟩ :=
          hInv
        unfold sieveSegment EntryOK
        dsimp only
        omega
      · have h1 := ih (advanceSegment s) (inv_advance hInv hcond) e he
        obtain ⟨ha1, ha2, ha3, ha4, ha5, ha6, ha7, ha8, ha9⟩ := h1
        have hdelta : (advanceSegment s).segmentLow_ =
            s.segmentLow_ + s.sieveSize_ * 30 := by
          simp [advanceSegment, numbersPerByte_eq]
        exact ⟨ha1, ha2, ha3, ha4, ha5, ha6, by omega, ha8, ha9⟩
    · rw [if_neg hcond] at he
      simp only [List.mem_singleton] at he
      subst he
      exact finishLast_entryOK hInv

theorem finishIter_head :
    ∀ (fuel : Nat) (s : SieveOfEratosthenes) (e : SieveOfEratosthenes × Delivery),
      (finishIter fuel s).head? = some e →
      e.1.segmentLow_ = s.segmentLow_ ∧ e.2.segmentLow = s.segmentLow_ := by
  intro fuel s e he
  cases fuel with
  | zero =>
    simp only [finishIter, List.head?_cons, Option.some.injEq] at he
    subst he
    exact ⟨rfl, rfl⟩
  | succ fuel =>
    simp only [finishIter] at he
    by_cases hcond : s.segmentHigh_ < s.stop_
    · rw [if_pos hcond] at he
      simp only [List.head?_cons, Option.some.injEq] at he
      subst he
      exact ⟨rfl, rfl⟩
    · rw [if_neg hcond] at he
      simp only [List.head?_cons, Option.some.injEq] at he
      subst he
      exact ⟨rfl, rfl⟩

theorem finishIter_chain :
    ∀ (fuel : Nat) (s : SieveOfEratosthenes), Inv s →
      List.Chain'
        (fun a b => b.1.segmentLow_ = a.1.segmentLow_ + a.1.sieveSize_ * 30 ∧
          b.2.segmentLow = a.2.segmentLow + a.2.sieveSize * 30)
        (finishIter fuel s) := by
  intro fuel
  induction fuel with
  | zero => intro s hInv; simp [finishIter]
  | succ fuel ih =>
    intro s hInv
    simp only [finishIter]
    by_cases hcond : s.segmentHigh_ < s.stop_
    · rw [if_pos hcond]
      rw [List.chain'_cons']
      refine ⟨?_, ih (advanceSegment s) (inv_advance hInv hcond)⟩
      intro b hb
      rcases hhead : (finishIter fuel (advanceSegment s)).head? with _ | e
      · simp [hhead] at hb
      · simp only [hhead, Option.mem_def, Option.some.injEq] at hb
        subst hb
        have h1 := finishIter_head fuel (advanceSegment s) e hhead
        have hdelta : (advanceSegment s).segmentLow_ =
            s.segmentLow_ + s.sieveSize_ * 30 := by
          simp [advanceSegment, numbersPerByte_eq]
        unfold sieveSegment
        dsimp only
        omega
    · rw [if_neg hcond]
      simp

theorem finishIter_getLast :
    ∀ (fuel : Nat) (s : SieveOfEratosthenes), Inv s →
      s.stop_ ≤ s.segmentHigh_ + fuel * (s.sieveSize_ * 30) →
      ∃ t, Inv t ∧ t.start_ = s.start_ ∧ t.stop_ = s.stop_ ∧
        t.limitPreSieve_ = s.limitPreSieve_ ∧ s.segmentLow_ ≤ t.segmentLow_ ∧
        t.stop_ ≤ t.segmentHigh_ ∧
        (finishIter fuel s).getLast? = some (finishLast t) := by
  intro fuel
  induction fuel with
  | zero =>
    intro s hInv hfuel
    exact ⟨s, hInv, rfl, rfl, rfl, le_refl _, by omega, rfl⟩
  | succ fuel ih =>
    intro s hInv hfuel
    simp only [finishIter]
    by_cases hcond : s.segmentHigh_ < s.stop_
    · rw [if_pos hcond]
      have hfuel' : (advanceSegment s).stop_ ≤ (advanceSegment s).segmentHigh_ +
          fuel * ((advanceSegment s).sieveSize_ * 30) := by
        simp only [advanceSegment]
        have hm : (fuel + 1) * (s.sieveSize_ * 30) =
            fuel * (s.sieveSize_ * 30) + s.sieveSize_ * 30 := by ring
        simp only [numbersPerByte_eq]
        omega
      obtain ⟨t, ht1, ht2, ht3, ht4, ht5, ht6, ht7⟩ :=
        ih (advanceSegment s) (inv_advance hInv hcond) hfuel'
      have hdelta : (advanceSegment s).segmentLow_ =
          s.segmentLow_ + s.sieveSize_ * 30 := by
        simp [advanceSegment, numbersPerByte_eq]
      refine ⟨t, ht1, ht2, ht3, ht4, by omega, ht6, ?_⟩
      rcases hrest : finishIter fuel (advanceSegment s) with _ | ⟨y, ys⟩
      · exact absurd hrest (finishIter_ne_nil fuel (advanceSegment s))
      · rw [hrest] at ht7
        rw [List.getLast?_cons_cons]
        exact ht7
    · rw [if_neg hcond]
      exact ⟨s, hInv, rfl, rfl, rfl, le_refl _, by omega, rfl⟩

theorem finishIter_length :
    ∀ (fuel : Nat) (s : SieveOfEratosthenes), Inv s →
      s.stop_ ≤ s.segmentHigh_ + fuel * (s.sieveSize_ * 30) →
      (finishIter fuel s).length =
        (s.stop_ - s.segmentLow_ - 2) / (s.sieveSize_ * 30) + 1 := by
  intro fuel
  induction fuel with
  | zero =>
    intro s hInv hfuel
    have hhigh := hInv.highEq
    have hz : (s.stop_ - s.segmentLow_ - 2) / (s.sieveSize_ * 30) = 0 :=
      Nat.div_eq_of_lt (by have := hInv.sizeLarge; omega)
    simp [finishIter, hz]
  | succ fuel ih =>
    intro s hInv hfuel
    simp only [finishIter]
    by_cases hcond : s.segmentHigh_ < s.stop_
    · rw [if_pos hcond]
      have hfuel' : (advanceSegment s).stop_ ≤ (advanceSegment s).segmentHigh_ +
          fuel * ((advanceSegment s).sieveSize_ * 30) := by
        simp only [advanceSegment, numbersPerByte_eq]
        have hm : (fuel + 1) * (s.sieveSize_ * 30) =
            fuel * (s.sieveSize_ * 30) + s.sieveSize_ * 30 := by ring
        omega
      have hrest := ih (advanceSegment s) (inv_advance hInv hcond) hfuel'
      rw [advanceSegment_stop, advanceSegment_low, advanceSegment_size] at hrest
      have hhigh := hInv.highEq
      have hsz := hInv.sizeLarge
      have hpos : 0 < s.sieveSize_ * 30 := by omega
      have hsplit : s.stop_ - s.segmentLow_ - 2 =
          (s.stop_ - (s.segmentLow_ + s.sieveSize_ * 30) - 2) +
            s.sieveSize_ * 30 := by omega
      rw [List.length_cons, hrest, hsplit, Nat.add_div_right _ hpos]
    · rw [if_neg hcond]
      have hhigh := hInv.highEq
      have hz : (s.stop_ - s.segmentLow_ - 2) / (s.sieveSize_ * 30) = 0 :=
        Nat.div_eq_of_lt (by have := hInv.sizeLarge; omega)
      simp [hz]

/-! ### Top-level run facts -/

theorem finishTrace_fuel {s : SieveOfEratosthenes} (hInv : Inv s) :
    s.stop_ ≤ s.segmentHigh_ + (s.stop_ + 1) * (s.sieveSize_ * 30) := by
  have hsz := hInv.sizeLarge
  have h1 : s.stop_ + 1 ≤ (s.stop_ + 1) * (s.sieveSize_ * 30) :=
    Nat.le_mul_of_pos_right (s.stop_ + 1) (by omega)
  omega

theorem run_decodes {start stop sieveSize preSieve : Nat}
    {s : SieveOfEratosthenes}
    (hok : construct start stop sieveSize preSieve = .ok s) :
    ∀ n, decodedIn (finishTrace s) n ↔ (start ≤ n ∧ n ≤ stop ∧ n.Prime) := by
  intro n
  have hInv := construct_inv hok
  have hfields := construct_ok hok
  have hmaster := finishIter_decodes (s.stop_ + 1) s hInv (finishTrace_fuel hInv) n
  have hstart : s.start_ = start := by rw [hfields.1]
  have hstop : s.stop_ = stop := by rw [hfields.1]
  have hlow : s.segmentLow_ = start - getByteRemainder start := by rw [hfields.1]
  have hremb := getByteRemainder_bounds start
  have hremle := getByteRemainder_le (n := start) (by omega)
  rw [show finishTrace s = finishIter (s.stop_ + 1) s from rfl]
  rw [hmaster, hstart, hstop, hlow]
  constructor
  · rintro ⟨h1, h2, h3, h4⟩
    exact ⟨h1, h3, h4⟩
  · rintro ⟨h1, h3, h4⟩
    have h7 := hfields.2.1
    exact ⟨h1, by omega, h3, h4⟩

theorem finishIter_tail :
    ∀ (fuel : Nat) (s : SieveOfEratosthenes), Inv s →
      ∀ e ∈ (finishIter fuel s).tail,
        s.start_ < e.1.segmentLow_ ∧ e.1.start_ = s.start_ ∧
          e.1.limitPreSieve_ = s.limitPreSieve_ := by
  intro fuel s hInv e he
  cases fuel with
  | zero => simp [finishIter] at he
  | succ fuel =>
    simp only [finishIter] at he
    by_cases hcond : s.segmentHigh_ < s.stop_
    · rw [if_pos hcond] at he
      simp only [List.tail_cons] at he
      have hE := finishIter_entries fuel (advanceSegment s)
        (inv_advance hInv hcond) e he
      obtain ⟨ha1, ha2, ha3, ha4, ha5, ha6, ha7, ha8, ha9⟩ := hE
      have hnear := hInv.startNear
      have hsz := hInv.sizeLarge
      rw [advanceSegment_low] at ha7
      rw [advanceSegment_start] at ha1
      rw [show (advanceSegment s).limitPreSieve_ = s.limitPreSieve_ from rfl] at ha3
      exact ⟨by omega, ha1, ha3⟩
    · rw [if_neg hcond] at he
      simp at he

/-! ### floorPowerOf2 specification -/

theorem log2Fuel_spec :
    ∀ (fuel n : Nat), 1 ≤ n → n < 2 ^ fuel →
      2 ^ log2Fuel fuel n ≤ n ∧ n < 2 ^ (log2Fuel fuel n + 1) := by
  intro fuel
  induction fuel with
  | zero => intro n h1 h2; omega
  | succ fuel ih =>
    intro n h1 h2
    simp only [log2Fuel]
    by_cases hle : n ≤ 1
    · rw [if_pos hle]
      have hn1 : n = 1 := by omega
      subst hn1
      norm_num
    · rw [if_neg hle]
      have hrec := ih (n / 2) (by omega) (by
        have hp : (2:Nat) ^ (fuel + 1) = 2 ^ fuel + 2 ^ fuel := by ring
        omega)
      have hp1 : (2:Nat) ^ (log2Fuel fuel (n / 2) + 1) =
          2 * 2 ^ log2Fuel fuel (n / 2) := by ring
      have hp2 : (2:Nat) ^ (log2Fuel fuel (n / 2) + 1 + 1) =
          2 * 2 ^ (log2Fuel fuel (n / 2) + 1) := by ring
      rw [hp2, hp1]
      omega

theorem floorPowerOf2_spec {n : Nat} (h1 : 1 ≤ n) (h2 : n < 2 ^ 32) :
    floorPowerOf2 n ≤ n ∧ n < 2 * floorPowerOf2 n ∧
      floorPowerOf2 n = 2 ^ log2Fuel 32 n := by
  have hs := log2Fuel_spec 32 n h1 h2
  have hp : (2:Nat) ^ (log2Fuel 32 n + 1) = 2 * 2 ^ log2Fuel 32 n := by ring
  unfold floorPowerOf2
  rw [if_neg (by omega)]
  omega

theorem bigStep_safe (oracle : Nat → Bool)
    (stop sqrtStop limitEratMedium : Nat) (m : Members) (a : List Res)
    (hm : cleanUpFrees m = a) :
    (∀ e al fr, bigStep oracle stop sqrtStop limitEratMedium m a =
        (.error e, al, fr) → fr = al) ∧
    (∀ m2 al fr, bigStep oracle stop sqrtStop limitEratMedium m a =
        (.ok m2, al, fr) → fr = []) := by
  unfold bigStep
  split_ifs <;> constructor <;> intro x al fr hEq <;>
    simp only [Prod.mk.injEq, Except.error.injEq, Except.ok.injEq] at hEq <;>
    simp_all

theorem mediumStep_safe (oracle : Nat → Bool)
    (stop sqrtStop limitEratSmall limitEratMedium : Nat) (m : Members)
    (a : List Res) (hm : cleanUpFrees m = a)
    (hmed : m.eratMedium_ = false) (hbig : m.eratBig_ = false) :
    (∀ e al fr, mediumStep oracle stop sqrtStop limitEratSmall limitEratMedium
        m a = (.error e, al, fr) → fr = al) ∧
    (∀ m2 al fr, mediumStep oracle stop sqrtStop limitEratSmall
        limitEratMedium m a = (.ok m2, al, fr) → fr = []) := by
  have hstep : cleanUpFrees { m with eratMedium_ := true } =
      a ++ [Res.eratMediumObj] := by
    simp [cleanUpFrees, hmed, hbig] at hm ⊢
    simp [← hm]
  unfold mediumStep
  split_ifs with h1 h2
  · constructor <;> intro x al fr hEq <;>
      simp only [Prod.mk.injEq, Except.error.injEq, Except.ok.injEq] at hEq <;>
      simp_all
  · exact bigStep_safe oracle stop sqrtStop limitEratMedium _ _ hstep
  · exact bigStep_safe oracle stop sqrtStop limitEratMedium _ _ hm

theorem smallStep_safe (oracle : Nat → Bool)
    (stop sqrtStop limitPreSieve limitEratSmall limitEratMedium : Nat)
    (m : Members) (a : List Res) (hm : cleanUpFrees m = a)
    (hsm : m.eratSmall_ = false) (hmed : m.eratMedium_ = false)
    (hbig : m.eratBig_ = false) :
    (∀ e al fr, smallStep oracle stop sqrtStop limitPreSieve limitEratSmall
        limitEratMedium m a = (.error e, al, fr) → fr = al) ∧
    (∀ m2 al fr, smallStep oracle stop sqrtStop limitPreSieve limitEratSmall
        limitEratMedium m a = (.ok m2, al, fr) → fr = []) := by
  have hstep : cleanUpFrees { m with eratSmall_ := true } =
      a ++ [Res.eratSmallObj] := by
    simp [cleanUpFrees, hsm, hmed, hbig] at hm ⊢
    simp [← hm]
  unfold smallStep
  split_ifs with h1 h2
  · constructor <;> intro x al fr hEq <;>
      simp only [Prod.mk.injEq, Except.error.injEq, Except.ok.injEq] at hEq <;>
      simp_all
  · exact mediumStep_safe oracle stop sqrtStop limitEratSmall limitEratMedium
      _ _ hstep hmed hbig
  · exact mediumStep_safe oracle stop sqrtStop limitEratSmall limitEratMedium
      _ _ hm hmed hbig

/-! ### The claims -/

/-- Claim C1: for every start, stop satisfying the construction
preconditions (7 ≤ start ≤ stop ≤ 2^64 − 10·2^32) and every in-range
sieveSize and preSieve limit, after all sieving primes ≤ √stop have been
added (their combined effect is `tierHitB` inside `crossOffOut`) and
`finish()` has run, the set of integers decoded from the set bits across
all bitmaps delivered to segmentProcessed equals exactly the set of prime
numbers in [start, stop]. -/
theorem C1_reported_set_eq_primes {start stop sieveSize preSieve : Nat}
    {s : SieveOfEratosthenes}
    (h7 : 7 ≤ start) (hss : start ≤ stop)
    (hmax : stop ≤ 2 ^ 64 - 2 ^ 32 * 10)
    (hsz1 : 1 ≤ sieveSize) (hsz2 : sieveSize ≤ 4096)
    (hps1 : 13 ≤ preSieve) (hps2 : preSieve ≤ 23)
    (hok : construct start stop sieveSize preSieve = .ok s) :
    decodedSet (finishTrace s) = { n | start ≤ n ∧ n ≤ stop ∧ n.Prime } := by
  ext n
  simp only [decodedSet, Set.mem_setOf_eq]
  exact run_decodes hok n

theorem C1_witness :
    (7:Nat) ≤ 7 ∧ (7:Nat) ≤ 100 ∧ (100:Nat) ≤ 2 ^ 64 - 2 ^ 32 * 10 ∧
    (1:Nat) ≤ 1 ∧ (1:Nat) ≤ 4096 ∧ (13:Nat) ≤ 17 ∧ (17:Nat) ≤ 23 ∧
    construct 7 100 1 17 = .ok ⟨7, 100, 10, 17, 768, 9216, 1024, 0, 30721⟩ ∧
    decodedSet (finishTrace ⟨7, 100, 10, 17, 768, 9216, 1024, 0, 30721⟩) =
      { n | 7 ≤ n ∧ n ≤ 100 ∧ n.Prime } :=
  ⟨by norm_num, by norm_num, by norm_num, by norm_num, by norm_num,
   by norm_num, by norm_num, by rfl,
   @C1_reported_set_eq_primes 7 100 1 17
     ⟨7, 100, 10, 17, 768, 9216, 1024, 0, 30721⟩ (by norm_num) (by norm_num)
     (by norm_num) (by norm_num) (by norm_num) (by norm_num) (by norm_num)
     (by rfl)⟩

/-- Claim C2 counterexample: constructing with sieveSize = 5000 KiB, which
is outside [1, 4096] KiB, does not fail as the claim requires; the
constructor succeeds and coerces the size to 4096 KiB. -/
theorem C2_counterexample :
    (4096:Nat) < 5000 ∧
    construct 7 100 5000 17 =
      .ok ⟨7, 100, 10, 17, 3145728, 37748736, 4194304, 0, 125829121⟩ ∧
    (4194304:Nat) = 4096 * 1024 :=
  ⟨by norm_num, by rfl, by norm_num⟩

/-- Claim C2 (amended): construction fails synchronously with a descriptive
error when start < 7, start > stop, stop > getMaxStop() (raised inside the
EratBig tier constructor), or the preSieve limit is outside [13, 23]; an
out-of-range sieveSize does not fail construction — it is coerced into
[1, 4096] KiB. -/
theorem C2_construct_failures (start stop sieveSize preSieve : Nat) :
    ((start < 7 ∨ stop < start ∨ getMaxStop < stop ∨
        preSieve < 13 ∨ 23 < preSieve) →
      ∃ e, construct start stop sieveSize preSieve = Except.error e) ∧
    (7 ≤ start → start ≤ stop → stop ≤ getMaxStop →
      13 ≤ preSieve → preSieve ≤ 23 →
      ∃ s, construct start stop sieveSize preSieve = Except.ok s ∧
        1024 ≤ s.sieveSize_ ∧ s.sieveSize_ ≤ 4096 * 1024) := by
  have hcs := coercedSieveSize_bounds sieveSize
  constructor
  · intro h
    by_cases h1 : start < 7
    · unfold construct
      rw [if_pos h1]
      exact ⟨_, rfl⟩
    by_cases h2 : start > stop
    · unfold construct
      rw [if_neg h1, if_pos h2]
      exact ⟨_, rfl⟩
    unfold construct init preSieveCtor eratBigCtor
    rw [if_neg h1, if_neg h2]
    dsimp only
    by_cases hps : 13 ≤ preSieve ∧ preSieve ≤ 23
    · rw [if_pos hps]
      have hmax : getMaxStop < stop := by
        unfold getMaxStop at h ⊢
        omega
      have hsq : 37748737 ≤ isqrt stop := by
        apply le_isqrt
        have hlit : (37748737:Nat) * 37748737 ≤ 2 ^ 64 - 2 ^ 32 * 10 := by
          norm_num
        unfold getMaxStop at hmax
        omega
      have hbig : isqrt stop >
          limitEratMediumOf (getInBetween 1 (floorPowerOf2 sieveSize) 4096 * 1024) := by
        have hcs2 := hcs
        unfold coercedSieveSize at hcs2
        unfold limitEratMediumOf
        omega
      rw [if_pos hbig]
      rw [if_neg (by omega)]
      exact ⟨_, rfl⟩
    · rw [if_neg hps]
      exact ⟨_, rfl⟩
  · intro h7 hss hmax hp1 hp2
    unfold construct init preSieveCtor eratBigCtor
    rw [if_neg (by omega), if_neg (by omega)]
    dsimp only
    rw [if_pos ⟨hp1, hp2⟩]
    have hcs2 := hcs
    unfold coercedSieveSize at hcs2
    by_cases hbig : isqrt stop >
        limitEratMediumOf (getInBetween 1 (floorPowerOf2 sieveSize) 4096 * 1024)
    · rw [if_pos hbig]
      rw [if_pos hmax]
      refine ⟨_, rfl, ?_, ?_⟩
      · exact hcs2.1
      · exact le_trans hcs2.2 (by norm_num)
    · rw [if_neg hbig]
      refine ⟨_, rfl, ?_, ?_⟩
      · exact hcs2.1
      · exact le_trans hcs2.2 (by norm_num)

theorem C2_witness :
    (∃ e, construct 3 100 1 17 = Except.error e) ∧
    (∃ s, construct 7 100 9999 17 = Except.ok s ∧
      1024 ≤ s.sieveSize_ ∧ s.sieveSize_ ≤ 4096 * 1024) :=
  ⟨(C2_construct_failures 3 100 1 17).1 (Or.inl (by norm_num)),
   (C2_construct_failures 7 100 9999 17).2 (by norm_num) (by norm_num)
     (by decide) (by norm_num) (by norm_num)⟩

/-- Claim C3 counterexample: with start = 7, stop = 30721, sieveSize = 1 KiB
the engine delivers exactly one segment, while
⌈(stop − segmentLow₀)/(sieveSize·30)⌉ = ⌈30721/30720⌉ = 2. -/
theorem C3_counterexample :
    construct 7 30721 1 17 =
      .ok ⟨7, 30721, 175, 17, 768, 9216, 1024, 0, 30721⟩ ∧
    (finishTrace (⟨7, 30721, 175, 17, 768, 9216, 1024, 0, 30721⟩ :
      SieveOfEratosthenes)).length = 1 ∧
    ((30721:Nat) - 0 + (1024 * 30 - 1)) / (1024 * 30) = 2 :=
  ⟨by rfl, by rfl, by norm_num⟩

/-- Claim C3 (amended): a full run of the engine invokes the
segmentProcessed sink exactly ⌈(stop − segmentLow₀ − 1)/(sieveSize·30)⌉
times, where segmentLow₀ is the initial segmentLow and sieveSize is the
coerced size in bytes. -/
theorem C3_sink_invocations {start stop sieveSize preSieve : Nat}
    {s : SieveOfEratosthenes}
    (hok : construct start stop sieveSize preSieve = .ok s) :
    (finishTrace s).length =
      (s.stop_ - s.segmentLow_ - 1 + (s.sieveSize_ * 30 - 1)) /
        (s.sieveSize_ * 30) := by
  have hInv := construct_inv hok
  have hlen := finishIter_length (s.stop_ + 1) s hInv (finishTrace_fuel hInv)
  rw [show finishTrace s = finishIter (s.stop_ + 1) s from rfl, hlen]
  have hsz := hInv.sizeLarge
  have hlls := hInv.lowLeStop
  have hrem := getByteRemainder_bounds s.stop_
  have hremle : getByteRemainder s.stop_ ≤ s.stop_ := by
    apply getByteRemainder_le
    have h1 := hInv.startStop
    have h2 := hInv.start7
    omega
  have hsplit : s.stop_ - s.segmentLow_ - 1 + (s.sieveSize_ * 30 - 1) =
      (s.stop_ - s.segmentLow_ - 2) + s.sieveSize_ * 30 := by omega
  rw [hsplit, Nat.add_div_right _ (by omega)]

theorem C3_witness :
    ∃ s, construct 7 100 1 17 = .ok s ∧
      (finishTrace s).length =
        (s.stop_ - s.segmentLow_ - 1 + (s.sieveSize_ * 30 - 1)) /
          (s.sieveSize_ * 30) :=
  ⟨⟨7, 100, 10, 17, 768, 9216, 1024, 0, 30721⟩, by rfl,
   @C3_sink_invocations 7 100 1 17 ⟨7, 100, 10, 17, 768, 9216, 1024, 0, 30721⟩
     (by rfl)⟩

/-- Claim C4: for every valid construction input, segmentLow is always a
multiple of 30 — at construction, at every delivered segment — and every
segment advance increases segmentLow by exactly sieveSize·30, the final
(resized) segment keeping the segmentLow of the loop state it came from. -/
theorem C4_segmentLow_alignment {start stop sieveSize preSieve : Nat}
    {s : SieveOfEratosthenes}
    (hok : construct start stop sieveSize preSieve = .ok s) :
    s.segmentLow_ % 30 = 0 ∧
    (∀ e ∈ finishTrace s, e.1.segmentLow_ % 30 = 0 ∧
      e.2.segmentLow % 30 = 0) ∧
    List.Chain'
      (fun a b => b.1.segmentLow_ = a.1.segmentLow_ + a.1.sieveSize_ * 30)
      (finishTrace s) := by
  have hInv := construct_inv hok
  refine ⟨hInv.lowMod, ?_, ?_⟩
  · intro e he
    obtain ⟨-, -, -, h4, -, -, -, h8, -⟩ :=
      finishIter_entries (s.stop_ + 1) s hInv e he
    exact ⟨h4, by rw [h8]; exact h4⟩
  · exact List.Chain'.imp (fun a b hab => hab.1)
      (finishIter_chain (s.stop_ + 1) s hInv)

theorem C4_witness :
    ∃ s, construct 7 100 1 17 = .ok s ∧ s.segmentLow_ % 30 = 0 ∧
      (∀ e ∈ finishTrace s, e.1.segmentLow_ % 30 = 0 ∧
        e.2.segmentLow % 30 = 0) ∧
      List.Chain'
        (fun a b => b.1.segmentLow_ = a.1.segmentLow_ + a.1.sieveSize_ * 30)
        (finishTrace s) :=
  ⟨⟨7, 100, 10, 17, 768, 9216, 1024, 0, 30721⟩, by rfl,
   @C4_segmentLow_alignment 7 100 1 17 ⟨7, 100, 10, 17, 768, 9216, 1024, 0, 30721⟩
     (by rfl)⟩

/-- Claim C5 counterexample: right after construction with start = 7,
stop = 100, sieveSize = 1 KiB, segmentHigh is 30721, which is not
segmentLow + sieveSize·30 − 1 = 30719. -/
theorem C5_counterexample :
    ∃ s, construct 7 100 1 17 = .ok s ∧
      s.segmentHigh_ ≠ s.segmentLow_ + s.sieveSize_ * 30 - 1 :=
  ⟨⟨7, 100, 10, 17, 768, 9216, 1024, 0, 30721⟩, by rfl, by norm_num⟩

/-- Claim C5 (amended): at every point of the run segmentHigh equals
segmentLow + sieveSize·30 + 1 (sieveSize in bytes), and it is the inclusive
upper integer of the segment window: every representable integer of the
window is at most segmentHigh and the topmost bit position decodes exactly
to segmentHigh. -/
theorem C5_segmentHigh_invariant {start stop sieveSize preSieve : Nat}
    {s : SieveOfEratosthenes}
    (hok : construct start stop sieveSize preSieve = .ok s) :
    s.segmentHigh_ = s.segmentLow_ + s.sieveSize_ * 30 + 1 ∧
    (∀ e ∈ finishTrace s,
      e.1.segmentHigh_ = e.1.segmentLow_ + e.1.sieveSize_ * 30 + 1 ∧
      (∀ i < e.2.sieveSize, ∀ j < 8,
        bitInteger e.2.segmentLow i j ≤ e.1.segmentHigh_) ∧
      bitInteger e.2.segmentLow (e.2.sieveSize - 1) 7 = e.1.segmentHigh_) := by
  have hInv := construct_inv hok
  refine ⟨hInv.highEq, ?_⟩
  intro e he
  obtain ⟨-, -, -, -, h5, h6, -, h8, h9⟩ :=
    finishIter_entries (s.stop_ + 1) s hInv e he
  refine ⟨h5, ?_, ?_⟩
  · intro i hi j hj
    have hrange := @bitInteger_range e.2.segmentLow i j hj
    rw [h9] at hi
    omega
  · have hb7 : bitValues 7 = 31 := rfl
    simp only [bitInteger, numbersPerByte_eq, hb7]
    rw [h8, h9]
    omega

theorem C5_witness :
    ∃ s, construct 7 100 1 17 = .ok s ∧
      (s.segmentHigh_ = s.segmentLow_ + s.sieveSize_ * 30 + 1 ∧
      (∀ e ∈ finishTrace s,
        e.1.segmentHigh_ = e.1.segmentLow_ + e.1.sieveSize_ * 30 + 1 ∧
        (∀ i < e.2.sieveSize, ∀ j < 8,
          bitInteger e.2.segmentLow i j ≤ e.1.segmentHigh_) ∧
        bitInteger e.2.segmentLow (e.2.sieveSize - 1) 7 = e.1.segmentHigh_)) :=
  ⟨⟨7, 100, 10, 17, 768, 9216, 1024, 0, 30721⟩, by rfl,
   @C5_segmentHigh_invariant 7 100 1 17 ⟨7, 100, 10, 17, 768, 9216, 1024, 0, 30721⟩
     (by rfl)⟩

/-- Claim C6: in the final segment, after sieving and before the last
segmentProcessed call, every bit of the final byte representing an integer
greater than stop is cleared, every byte at an index j with
sieveSize ≤ j below the next multiple-of-8 boundary is zero, and every set
bit within the delivered sieveSize bytes decodes to an integer ≤ stop. -/
theorem C6_final_segment_masking {start stop sieveSize preSieve : Nat}
    {s : SieveOfEratosthenes}
    (hok : construct start stop sieveSize preSieve = .ok s) :
    ∀ e, (finishTrace s).getLast? = some e →
      ((∀ k, e.2.sieveSize ≤ k → k < roundUp8 e.2.sieveSize →
          e.2.sieve k = 0) ∧
       (∀ j < 8, (e.2.sieve (e.2.sieveSize - 1)).testBit j = true →
          bitInteger e.2.segmentLow (e.2.sieveSize - 1) j ≤ stop) ∧
       (∀ i < e.2.sieveSize, ∀ j < 8, (e.2.sieve i).testBit j = true →
          bitInteger e.2.segmentLow i j ≤ stop)) := by
  intro e he
  have hInv := construct_inv hok
  obtain ⟨t, hInvT, hts, htp, htl, htlow, htlast, hlastEq⟩ :=
    finishIter_getLast (s.stop_ + 1) s hInv (finishTrace_fuel hInv)
  rw [show finishTrace s = finishIter (s.stop_ + 1) s from rfl] at he
  rw [hlastEq] at he
  obtain rfl : finishLast t = e := by
    simpa using he
  have hstop_eq : t.stop_ = stop := by
    rw [htp, (construct_ok hok).1]
  have hsize1 : 1 ≤ (finishLast t).2.sieveSize := by
    have hE := finishLast_entryOK hInvT
    obtain ⟨-, -, -, -, -, h6, -, -, h9⟩ := hE
    omega
  have hbits : ∀ i < (finishLast t).2.sieveSize, ∀ j < 8,
      ((finishLast t).2.sieve i).testBit j = true →
      bitInteger (finishLast t).2.segmentLow i j ≤ stop := by
    intro i hi j hj hbit
    have hdec : (finishLast t).2.decodes (bitInteger (finishLast t).2.segmentLow i j) :=
      ⟨i, hi, j, hj, hbit, rfl⟩
    have hchar := (finishLast_decodes hInvT htlast _).1 hdec
    omega
  refine ⟨?_, ?_, hbits⟩
  · intro k hk1 hk2
    revert hk1 hk2
    unfold finishLast
    dsimp only
    intro hk1 hk2
    rw [if_pos ⟨hk1, hk2⟩]
  · intro j hj hbit
    exact hbits _ (by omega) j hj hbit

theorem C6_witness :
    ∃ s, construct 7 100 1 17 = .ok s ∧
      (∀ e, (finishTrace s).getLast? = some e →
        ((∀ k, e.2.sieveSize ≤ k → k < roundUp8 e.2.sieveSize →
            e.2.sieve k = 0) ∧
         (∀ j < 8, (e.2.sieve (e.2.sieveSize - 1)).testBit j = true →
            bitInteger e.2.segmentLow (e.2.sieveSize - 1) j ≤ 100) ∧
         (∀ i < e.2.sieveSize, ∀ j < 8, (e.2.sieve i).testBit j = true →
            bitInteger e.2.segmentLow i j ≤ 100))) :=
  ⟨⟨7, 100, 10, 17, 768, 9216, 1024, 0, 30721⟩, by rfl,
   @C6_final_segment_masking 7 100 1 17
     ⟨7, 100, 10, 17, 768, 9216, 1024, 0, 30721⟩ (by rfl)⟩

/-- Claim C7: in the first segment, preSieve() clears exactly the bits
representing integers below start (all of which lie in the first byte of
the bitmap), and in every subsequent segment (segmentLow > start)
preSieve() performs no start-edge masking: its output is exactly the
PreSieve mask fill. -/
theorem C7_start_edge_masking {start stop sieveSize preSieve : Nat}
    {s : SieveOfEratosthenes}
    (hok : construct start stop sieveSize preSieve = .ok s) :
    (∀ i j, j < 8 → bitInteger s.segmentLow_ i j < s.start_ →
      ((preSieveOut s i).testBit j = false ∧ i = 0)) ∧
    (∀ i j, j < 8 → s.start_ ≤ bitInteger s.segmentLow_ i j →
      (doItByte s.limitPreSieve_ s.segmentLow_ i).testBit j = true →
      (preSieveOut s i).testBit j = true) ∧
    (∀ e ∈ (finishTrace s).tail, ∀ i,
      preSieveOut e.1 i = doItByte e.1.limitPreSieve_ e.1.segmentLow_ i) := by
  have hInv := construct_inv hok
  refine ⟨?_, ?_, ?_⟩
  · intro i j hj hlt
    have hrange := @bitInteger_range s.segmentLow_ i j hj
    have hnear := hInv.startNear
    constructor
    · cases hbit : (preSieveOut s i).testBit j
      · rfl
      · exfalso
        have hiff := (preSieveOut_testBit_iff hj hInv.start7 hInv.startNear
          hInv.firstSeg).1 hbit
        omega
    · omega
  · intro i j hj hge hdo
    rw [doItByte, testBit_byteOfBits _ hj, Bool.not_eq_true'] at hdo
    exact (preSieveOut_testBit_iff hj hInv.start7 hInv.startNear
      hInv.firstSeg).2 ⟨Or.inl hdo, hge⟩
  · intro e he i
    have htail := finishIter_tail (s.stop_ + 1) s hInv e he
    unfold preSieveOut
    rw [if_neg ?_]
    rintro ⟨hca, -⟩
    omega

theorem C7_witness :
    ∃ s, construct 7 100 1 17 = .ok s ∧
      ((∀ i j, j < 8 → bitInteger s.segmentLow_ i j < s.start_ →
        ((preSieveOut s i).testBit j = false ∧ i = 0)) ∧
      (∀ i j, j < 8 → s.start_ ≤ bitInteger s.segmentLow_ i j →
        (doItByte s.limitPreSieve_ s.segmentLow_ i).testBit j = true →
        (preSieveOut s i).testBit j = true) ∧
      (∀ e ∈ (finishTrace s).tail, ∀ i,
        preSieveOut e.1 i = doItByte e.1.limitPreSieve_ e.1.segmentLow_ i)) :=
  ⟨⟨7, 100, 10, 17, 768, 9216, 1024, 0, 30721⟩, by rfl,
   @C7_start_edge_masking 7 100 1 17
     ⟨7, 100, 10, 17, 768, 9216, 1024, 0, 30721⟩ (by rfl)⟩

/-- Claim C8: the effective sieve size equals
clamp(floorPowerOf2(sieveSize), 1, 4096) · 1024 bytes; it is always a power
of two between 1 KiB and 4096 KiB, and for a requested value already in
[1, 4096] it is the largest power of two not exceeding the request. -/
theorem C8_sieve_size_coercion {start stop sieveSize preSieve : Nat}
    {s : SieveOfEratosthenes}
    (hok : construct start stop sieveSize preSieve = .ok s) :
    s.sieveSize_ = getInBetween 1 (floorPowerOf2 sieveSize) 4096 * 1024 ∧
    (∃ k ≤ 12, s.sieveSize_ = 2 ^ k * 1024) ∧
    (1 ≤ sieveSize → sieveSize ≤ 4096 →
      (s.sieveSize_ = floorPowerOf2 sieveSize * 1024 ∧
       floorPowerOf2 sieveSize ≤ sieveSize ∧
       ∀ m, 2 ^ m ≤ sieveSize → 2 ^ m ≤ floorPowerOf2 sieveSize)) := by
  obtain ⟨rfl, h7, hss, hp1, hp2⟩ := construct_ok hok
  refine ⟨rfl, ?_, ?_⟩
  · show ∃ k ≤ 12, getInBetween 1 (floorPowerOf2 sieveSize) 4096 * 1024 =
      2 ^ k * 1024
    unfold getInBetween
    split_ifs with ha hb
    · exact ⟨0, by norm_num, by norm_num⟩
    · exact ⟨12, by norm_num, by norm_num⟩
    · by_cases h0 : sieveSize = 0
      · subst h0
        exact absurd (by norm_num [floorPowerOf2] : floorPowerOf2 0 < 1) ha
      · refine ⟨log2Fuel 32 sieveSize, ?_, ?_⟩
        · by_contra hk
          push_neg at hk
          have hmono := Nat.pow_le_pow_right (show 1 ≤ 2 by norm_num)
            (show 13 ≤ log2Fuel 32 sieveSize by omega)
          have hval : floorPowerOf2 sieveSize = 2 ^ log2Fuel 32 sieveSize := by
            unfold floorPowerOf2
            rw [if_neg h0]
          norm_num at hmono
          omega
        · have hval : floorPowerOf2 sieveSize = 2 ^ log2Fuel 32 sieveSize := by
            unfold floorPowerOf2
            rw [if_neg h0]
          rw [hval]
  · intro hsz1 hsz2
    have hspec := floorPowerOf2_spec (n := sieveSize) hsz1 (by norm_num; omega)
    obtain ⟨hle, hlt, hform⟩ := hspec
    have hclamp : getInBetween 1 (floorPowerOf2 sieveSize) 4096 =
        floorPowerOf2 sieveSize := by
      unfold getInBetween
      rw [if_neg (by omega), if_neg (by omega)]
    refine ⟨?_, hle, ?_⟩
    · show coercedSieveSize sieveSize = floorPowerOf2 sieveSize * 1024
      unfold coercedSieveSize
      rw [hclamp]
    intro m hm
    by_cases hmk : m ≤ log2Fuel 32 sieveSize
    · calc 2 ^ m ≤ 2 ^ log2Fuel 32 sieveSize :=
          Nat.pow_le_pow_right (by norm_num) hmk
        _ = floorPowerOf2 sieveSize := hform.symm
    · exfalso
      have hge : log2Fuel 32 sieveSize + 1 ≤ m := by omega
      have hmono := Nat.pow_le_pow_right (show 1 ≤ 2 by norm_num) hge
      have hpow : (2:Nat) ^ (log2Fuel 32 sieveSize + 1) =
          2 * 2 ^ log2Fuel 32 sieveSize := by ring
      rw [hpow] at hmono
      rw [hform] at hlt
      omega

theorem C8_witness :
    ∃ s, construct 7 100 5 17 = .ok s ∧
      (s.sieveSize_ = getInBetween 1 (floorPowerOf2 5) 4096 * 1024 ∧
      (∃ k ≤ 12, s.sieveSize_ = 2 ^ k * 1024) ∧
      (1 ≤ 5 → 5 ≤ 4096 →
        (s.sieveSize_ = floorPowerOf2 5 * 1024 ∧
         floorPowerOf2 5 ≤ 5 ∧
         ∀ m, 2 ^ m ≤ 5 → 2 ^ m ≤ floorPowerOf2 5))) :=
  ⟨⟨7, 100, 10, 17, 3072, 36864, 4096, 0, 122881⟩, by rfl,
   @C8_sieve_size_coercion 7 100 5 17
     ⟨7, 100, 10, 17, 3072, 36864, 4096, 0, 122881⟩ (by rfl)⟩

/-- Claim C9: if any allocation performed during construction (the sieve
array, the PreSieve object, or any of the EratSmall/EratMedium/EratBig
tiers) fails, every resource already acquired at that point is released
(the freed list equals the acquired list) and the failure is surfaced as an
error — by the shape of the result no partially initialized engine is ever
returned; a successful construction frees nothing. -/
theorem C9_alloc_failure_teardown (oracle : Nat → Bool)
    (start stop sieveSize preSieve : Nat) :
    (∀ e al fr, constructAlloc oracle start stop sieveSize preSieve =
        (.error e, al, fr) → fr = al) ∧
    (∀ m al fr, constructAlloc oracle start stop sieveSize preSieve =
        (.ok m, al, fr) → fr = []) := by
  unfold constructAlloc
  split_ifs with h1 h2 h3 h4 h5 <;>
    try (constructor <;> intro x al fr hEq <;>
      simp only [Prod.mk.injEq] at hEq <;>
      obtain ⟨hx, hal, hfr⟩ := hEq <;>
      first
        | (exact Except.noConfusion hx)
        | (subst hal; subst hfr; rfl))
  exact smallStep_safe oracle stop (isqrt stop) preSieve
      (limitEratSmallOf (coercedSieveSize sieveSize))
      (limitEratMediumOf (coercedSieveSize sieveSize))
      ⟨true, true, false, false, false⟩ [Res.sieveArr, Res.preSieveObj]
      (by rfl) rfl rfl rfl

theorem C9_witness :
    ∃ e al fr,
      constructAlloc (fun k => decide (k ≠ 1)) 7 4000000 1 17 =
        (.error e, al, fr) ∧ fr = al :=
  ⟨"bad_alloc", [Res.sieveArr], [Res.sieveArr], by rfl,
   (C9_alloc_failure_teardown (fun k => decide (k ≠ 1)) 7 4000000 1 17).1
     "bad_alloc" [Res.sieveArr] [Res.sieveArr] (by rfl)⟩

/-- Claim C10: in the first segment, if start ≤ limitPreSieve, preSieve()
first sets the whole first byte to 0xff before applying the below-start
mask; the first byte then represents exactly {7,11,13,17,19,23,29,31},
which are all prime, so the primes ≤ limitPreSieve in [start, stop] —
cleared by the pre-sieve mask as multiples of themselves — are still
reported by the full run. -/
theorem C10_presieve_limit_primes_restored {start stop sieveSize preSieve : Nat}
    {s : SieveOfEratosthenes}
    (h7 : 7 ≤ start) (hss : start ≤ stop)
    (hps1 : 13 ≤ preSieve) (hps2 : preSieve ≤ 23)
    (hL : start ≤ preSieve)
    (hok : construct start stop sieveSize preSieve = .ok s) :
    preSieveOut s 0 =
      255 &&& (255 <<< startBitIndex (getByteRemainder s.start_)) ∧
    (∀ j < 8, (bitInteger s.segmentLow_ 0 j).Prime) ∧
    (∀ q, q.Prime → q ≤ preSieve → start ≤ q → q ≤ stop →
      decodedIn (finishTrace s) q) := by
  have hrun := run_decodes hok
  obtain ⟨rfl, h7c, hssc, hp1c, hp2c⟩ := construct_ok hok
  have hseg0 : start - getByteRemainder start = 0 := by
    rw [getByteRemainder_eq]
    split <;> omega
  refine ⟨?_, ?_, ?_⟩
  · show preSieveOut _ 0 = _
    unfold preSieveOut
    rw [if_pos
        (And.intro (show start - getByteRemainder start ≤ start by omega) rfl),
      if_pos (show start ≤ preSieve from hL)]
  · intro j hj
    have hbi : bitInteger (start - getByteRemainder start) 0 j = bitValues j := by
      rw [hseg0]
      simp [bitInteger, numbersPerByte_eq]
    show (bitInteger (start - getByteRemainder start) 0 j).Prime
    rw [hbi]
    exact bitValues_prime j hj
  · intro q hq hqL hqs hqstop
    exact (hrun q).2 ⟨hqs, hqstop, hq⟩

theorem C10_witness :
    ∃ s, construct 13 100 1 17 = .ok s ∧
      (preSieveOut s 0 =
        255 &&& (255 <<< startBitIndex (getByteRemainder s.start_)) ∧
      (∀ j < 8, (bitInteger s.segmentLow_ 0 j).Prime) ∧
      (∀ q, q.Prime → q ≤ 17 → 13 ≤ q → q ≤ 100 →
        decodedIn (finishTrace s) q)) :=
  ⟨⟨13, 100, 10, 17, 768, 9216, 1024, 0, 30721⟩, by rfl,
   @C10_presieve_limit_primes_restored 13 100 1 17
     ⟨13, 100, 10, 17, 768, 9216, 1024, 0, 30721⟩ (by norm_num) (by norm_num)
     (by norm_num) (by norm_num) (by norm_num) (by rfl)⟩

end Soe
